import Mathlib

/-!
# VaultMark: password-protected bookmark categories

A shallow embedding of `popup.js` (class `BookmarkManager`): the hex codec, the
credential helpers (`hashPassword`, `generateSalt`, `deriveKey`), the record cipher
(`encryptBookmark`, `decryptBookmark`) and the category workflows (`toggleCategory`,
`manageCategoryPassword`, `bookmarkCurrentPage`, `getOrCreateCategory`, `renameCategory`,
`deleteCategory`), followed by the properties proved about them.

Conventions of the embedding.
* A JavaScript string is a Lean `String`; the hex decoder looks at it one element at a
  time, an element standing for one UTF-16 code unit.
* `null` and `undefined` are both `none`; the code only ever tests such fields for
  truthiness.
* Web Crypto, `TextEncoder`/`TextDecoder` and `JSON` are parameters (`Prims`); the random
  source, the clock, the id generator and the user's answers to `prompt`/`confirm` are
  explicit inputs of each operation.
* An `await`ed call that throws makes the `async` method stop there: nothing after it
  runs, in particular no `chrome.storage.local.set`.
-/

namespace VaultMark

/-! ## Bytes and the hex codec -/

/-- An element of a `Uint8Array`. -/
abbrev Byte := Fin 256

/-- ECMAScript `LineTerminator`: the characters the regular expression `.` refuses. -/
def isLineTerminator (c : Char) : Bool :=
  c.toNat == 0x0A || c.toNat == 0x0D || c.toNat == 0x2028 || c.toNat == 0x2029

/-- ECMAScript `WhiteSpace` (tab, VT, FF, ZWNBSP and the Unicode space separators). -/
def isWhiteSpace (c : Char) : Bool :=
  c.toNat == 0x09 || c.toNat == 0x0B || c.toNat == 0x0C || c.toNat == 0x20 ||
  c.toNat == 0xA0 || c.toNat == 0xFEFF || c.toNat == 0x1680 ||
  (0x2000 ≤ c.toNat && c.toNat ≤ 0x200A) ||
  c.toNat == 0x202F || c.toNat == 0x205F || c.toNat == 0x3000

/-- What `String.prototype.trim` and `parseInt` strip: white space and line terminators. -/
def isStrWhiteSpaceChar (c : Char) : Bool :=
  isWhiteSpace c || isLineTerminator c

/-- Truthiness of a string: `!s` is false exactly for a non-empty string. -/
def strTruthy (s : String) : Bool :=
  !s.data.isEmpty

/-- Truthiness of a field that holds a string, `null` or `undefined`. -/
def truthy : Option String → Bool
  | none => false
  | some s => strTruthy s

/-- The test `s.trim() !== ''`. -/
def trimNonEmpty (s : String) : Bool :=
  !s.data.all isStrWhiteSpaceChar

/-- The method `s.trim()`. -/
def trim (s : String) : String :=
  String.mk ((s.data.dropWhile isStrWhiteSpaceChar).reverse.dropWhile isStrWhiteSpaceChar).reverse

/-- The call `s.padStart(2, '0')` on a list of characters. -/
def padStart2 (l : List Char) : List Char :=
  List.replicate (2 - l.length) '0' ++ l

/-- The expression `b.toString(16).padStart(2, '0')` for one byte. -/
def byteToHex (b : Byte) : List Char :=
  padStart2 (Nat.toDigits 16 b.val)

/-- The expression `Array.from(bytes).map(b => b.toString(16).padStart(2, '0')).join('')`. -/
def toHex (bytes : List Byte) : String :=
  String.mk (bytes.map byteToHex).flatten

/-- The matches of `/.{1,2}/g`: greedy chunks of one or two characters that are not line
terminators; a line terminator is skipped. -/
def matchChunks : List Char → List (List Char)
  | [] => []
  | [c] => if isLineTerminator c then [] else [[c]]
  | c :: d :: rest =>
    if isLineTerminator c then matchChunks (d :: rest)
    else if isLineTerminator d then [c] :: matchChunks rest
    else [c, d] :: matchChunks rest

/-- The value of a base-16 digit. -/
def hexDigitVal (c : Char) : Option Nat :=
  if '0' ≤ c ∧ c ≤ '9' then some (c.toNat - '0'.toNat)
  else if 'a' ≤ c ∧ c ≤ 'f' then some (c.toNat - 'a'.toNat + 10)
  else if 'A' ≤ c ∧ c ≤ 'F' then some (c.toNat - 'A'.toNat + 10)
  else none

/-- The number read from the longest prefix of base-16 digits, with how many were read. -/
def readHexDigits : List Char → Nat → Nat → Nat × Nat
  | [], acc, n => (acc, n)
  | c :: cs, acc, n =>
    match hexDigitVal c with
    | some d => readHexDigits cs (acc * 16 + d) (n + 1)
    | none => (acc, n)

/-- Removes the optional `0x` / `0X` prefix that `parseInt` accepts for radix 16. -/
def stripHexPrefix : List Char → List Char
  | '0' :: 'x' :: rest => rest
  | '0' :: 'X' :: rest => rest
  | l => l

/-- The call `parseInt(s, 16)`; `none` is `NaN`. -/
def parseInt16 (s : List Char) : Option Int :=
  let s1 := s.dropWhile isStrWhiteSpaceChar
  let (neg, s2) := match s1 with
    | '-' :: r => (true, r)
    | '+' :: r => (false, r)
    | r => (false, r)
  let (v, n) := readHexDigits (stripHexPrefix s2) 0 0
  if n = 0 then none else some (if neg then - (v : Int) else (v : Int))

/-- The conversion of a number to an element of a `Uint8Array`: `NaN` is 0, an integer is
taken modulo 256. -/
def toUint8 : Option Int → Byte
  | none => 0
  | some i => ⟨(i % 256).toNat, by omega⟩

/-- The expression `new Uint8Array(s.match(/.{1,2}/g).map(byte => parseInt(byte, 16)))`;
`none` when `match` returns `null` and `.map` throws. -/
def hexToBytes (s : String) : Option (List Byte) :=
  match matchChunks s.data with
  | [] => none
  | cs => some (cs.map (fun c => toUint8 (parseInt16 c)))

/-- The call `crypto.getRandomValues(new Uint8Array(n))`, reading the random source `rnd`. -/
def getRandomValues (n : Nat) (rnd : Nat → Byte) : List Byte :=
  (List.range n).map rnd

/-! ## Primitives supplied by the platform -/

/-- The fields of a bookmark that are encrypted: the object `{url, title}`. A field that is
`undefined` is left out by `JSON.stringify` and is `undefined` again after `JSON.parse`. -/
structure Payload where
  url : Option String
  title : Option String
deriving DecidableEq, Repr

/-- Platform functions the code calls. `aesGcmEncrypt` and `aesGcmDecrypt` are
`crypto.subtle.encrypt` / `decrypt` with `AES-GCM` (key, iv, data), `none` when the promise
rejects; `pbkdf2` is `importKey` followed by `deriveKey` (password bytes, salt bytes);
`jsonParse` is `JSON.parse` read at the shape `{url, title}`, `none` when it throws. -/
structure Prims where
  utf8Encode : String → List Byte
  utf8Decode : List Byte → String
  sha256 : List Byte → List Byte
  pbkdf2 : List Byte → List Byte → List Byte
  aesGcmEncrypt : List Byte → List Byte → List Byte → Option (List Byte)
  aesGcmDecrypt : List Byte → List Byte → List Byte → Option (List Byte)
  jsonStringify : Payload → String
  jsonParse : String → Option Payload

/-- What the round-trip properties assume of the platform: encryption succeeds and its
output (which carries the authentication tag) is not empty, and decryption, UTF-8 decoding
and JSON parsing undo encryption, encoding and serialisation. -/
structure Prims.CipherLaws (P : Prims) : Prop where
  utf8_roundtrip : ∀ s, P.utf8Decode (P.utf8Encode s) = s
  json_roundtrip : ∀ r, P.jsonParse (P.jsonStringify r) = some r
  aes_roundtrip : ∀ key iv pt, ∃ ct, P.aesGcmEncrypt key iv pt = some ct ∧ ct ≠ [] ∧
    P.aesGcmDecrypt key iv ct = some pt

/-- A SHA-256 digest has 32 bytes. -/
def Prims.DigestLaw (P : Prims) : Prop :=
  ∀ x, (P.sha256 x).length = 32

/-! ## Credentials and the record cipher -/

/-- The method `hashPassword(password)`: the SHA-256 digest of the encoded password in hex. -/
def hashPassword (P : Prims) (password : String) : String :=
  toHex (P.sha256 (P.utf8Encode password))

/-- The method `generateSalt()`: sixteen random bytes in hex. -/
def generateSalt (rnd : Nat → Byte) : String :=
  toHex (getRandomValues 16 rnd)

/-- The method `deriveKey(password, salt)`; `none` when it throws (`salt` is `null`, or
`salt.match` finds nothing). -/
def deriveKey (P : Prims) (password : String) (salt : Option String) : Option (List Byte) :=
  match salt with
  | none => none
  | some s =>
    match hexToBytes s with
    | none => none
    | some saltBytes => some (P.pbkdf2 (P.utf8Encode password) saltBytes)

/-- The stored object `encryptedData`. -/
structure EncryptedData where
  ciphertext : String
  iv : String
deriving DecidableEq, Repr

/-- The method `encryptBookmark(bookmark, password, salt)`, which reads `bookmark.url` and
`bookmark.title` only; `rnd` is the random source of the iv. `none` when it throws. -/
def encryptBookmark (P : Prims) (url title : Option String) (password : String)
    (salt : Option String) (rnd : Nat → Byte) : Option EncryptedData :=
  match deriveKey P password salt with
  | none => none
  | some key =>
    let data := P.jsonStringify { url := url, title := title }
    let iv := getRandomValues 12 rnd
    match P.aesGcmEncrypt key iv (P.utf8Encode data) with
    | none => none
    | some encrypted => some { ciphertext := toHex encrypted, iv := toHex iv }

/-- The method `decryptBookmark(bookmark, password, salt)`, which reads
`bookmark.encryptedData` only; `none` when it throws. -/
def decryptBookmark (P : Prims) (encryptedData : Option EncryptedData) (password : String)
    (salt : Option String) : Option Payload :=
  match deriveKey P password salt with
  | none => none
  | some key =>
    match encryptedData with
    | none => none
    | some ed =>
      match hexToBytes ed.ciphertext with
      | none => none
      | some ciphertext =>
        match hexToBytes ed.iv with
        | none => none
        | some iv =>
          match P.aesGcmDecrypt key iv ciphertext with
          | none => none
          | some decrypted => P.jsonParse (P.utf8Decode decrypted)

/-! ## Stored records and runtime state -/

/-- A stored bookmark. The plaintext variant carries `url` and `title`, the encrypted variant
carries `encryptedData`; `encrypted` is the flag the code filters on. -/
structure Bookmark where
  id : String
  categoryId : String
  domain : String
  createdAt : Nat
  encrypted : Bool
  url : Option String
  title : Option String
  encryptedData : Option EncryptedData
deriving DecidableEq, Repr

/-- A stored category; `password` holds the verifier (`null` when unprotected). -/
structure Category where
  id : String
  name : String
  originalDomain : Option String
  createdAt : Nat
  password : Option String
  salt : Option String
deriving DecidableEq, Repr

/-- The stored object `settings`. -/
structure Settings where
  autoCreateCategories : Bool
  defaultCategoryName : String
deriving DecidableEq, Repr

/-- The keys of `chrome.storage.local` the code reads and writes; `none` is a key never
written. -/
structure Store where
  categories : Option (List Category)
  bookmarks : Option (List Bookmark)
  domainCategoryMap : Option (List (String × String))
  settings : Option Settings
deriving DecidableEq, Repr

/-- An element of a `decryptedCache` entry: the object `{ id: bookmark.id, ...decrypted }`. -/
structure CachedBookmark where
  id : String
  url : Option String
  title : Option String
deriving DecidableEq, Repr

/-- The runtime fields of `BookmarkManager`: the set `expandedCategories` and the maps
`decryptedCache` and `derivedKeys`, each in insertion order. -/
structure Controller where
  expandedCategories : List String
  decryptedCache : List (String × List CachedBookmark)
  derivedKeys : List (String × List Byte)
deriving DecidableEq, Repr

/-- What a run does besides changing state, in order. `uncaught` is an exception that leaves
the method. -/
inductive Event where
  | deriveKey
  | encryptBookmark
  | decryptBookmark
  | storageSet
  | alert
  | uncaught
deriving DecidableEq, Repr

/-- The state after a run and what the run did. -/
structure Outcome where
  store : Store
  ctl : Controller
  trace : List Event
deriving DecidableEq, Repr

/-- The method `Set.prototype.add`. -/
def setAdd (s : List String) (x : String) : List String :=
  if s.contains x then s else s ++ [x]

/-- The method `Set.prototype.delete`. -/
def setDelete (s : List String) (x : String) : List String :=
  s.filter (fun y => y != x)

/-- The method `Map.prototype.has`. -/
def mapHas {β : Type} (m : List (String × β)) (k : String) : Bool :=
  m.any (fun e => e.1 == k)

/-- The method `Map.prototype.get`. -/
def mapGet {β : Type} (m : List (String × β)) (k : String) : Option β :=
  (m.find? (fun e => e.1 == k)).map (fun e => e.2)

/-- The method `Map.prototype.set`. -/
def mapSet {β : Type} (m : List (String × β)) (k : String) (v : β) : List (String × β) :=
  if mapHas m k then m.map (fun e => if e.1 == k then (k, v) else e) else m ++ [(k, v)]

/-- The method `Map.prototype.delete`. -/
def mapDelete {β : Type} (m : List (String × β)) (k : String) : List (String × β) :=
  m.filter (fun e => e.1 != k)

/-- The method `Array.prototype.findIndex`; `none` is `-1`. -/
def findIndex {α : Type} (p : α → Bool) : List α → Option Nat
  | [] => none
  | a :: as => if p a then some 0 else (findIndex p as).map (fun i => i + 1)

/-- Assignment to the fields of the object that `categories.find(c => c.id === categoryId)`
returned: the first category with that id is changed in place. -/
def updateCategory (f : Category → Category) (categoryId : String) :
    List Category → List Category
  | [] => []
  | c :: cs => if c.id == categoryId then f c :: cs else c :: updateCategory f categoryId cs

/-- The assignment `array[i] = f(array[i])`. -/
def setAt {α : Type} (f : α → α) : List α → Nat → List α
  | [], _ => []
  | a :: as, 0 => f a :: as
  | a :: as, i + 1 => a :: setAt f as i

/-- The events of one `encryptBookmark` call, which calls `deriveKey` first. -/
def encryptCall : List Event := [Event.encryptBookmark, Event.deriveKey]

/-- The events of one `decryptBookmark` call, which calls `deriveKey` first. -/
def decryptCall : List Event := [Event.decryptBookmark, Event.deriveKey]

/-! ## toggleCategory -/

/-- The loop of `toggleCategory` over `categoryBookmarks`: each bookmark is decrypted and
`{ id: bookmark.id, ...decrypted }` is pushed; the first failure ends the loop with `none`
(the `catch` block returns from the method). -/
def decryptForUnlock (P : Prims) (inputPassword : String) (salt : Option String) :
    List Bookmark → List Event × Option (List CachedBookmark)
  | [] => ([], some [])
  | bookmark :: rest =>
    match decryptBookmark P bookmark.encryptedData inputPassword salt with
    | none => (decryptCall, none)
    | some decrypted =>
      let r := decryptForUnlock P inputPassword salt rest
      (decryptCall ++ r.1,
        r.2.map (fun l => { id := bookmark.id, url := decrypted.url, title := decrypted.title } :: l))

/-- The method `toggleCategory(categoryId)`; `inputPassword` is the answer to the prompt
(`none` when cancelled), consulted only when the prompt is shown. -/
def toggleCategory (P : Prims) (inputPassword : Option String) (st : Store) (ctl : Controller)
    (categoryId : String) : Outcome :=
  if !ctl.expandedCategories.contains categoryId then
    match st.categories with
    | none => { store := st, ctl := ctl, trace := [Event.uncaught] }
    | some categories =>
      let expand (c : Controller) (ev : List Event) : Outcome :=
        { store := st,
          ctl := { c with expandedCategories := setAdd c.expandedCategories categoryId },
          trace := ev }
      match categories.find? (fun c => c.id == categoryId) with
      | none => expand ctl []
      | some category =>
        if truthy category.password then
          match inputPassword with
          | none => { store := st, ctl := ctl, trace := [] }
          | some inputPassword =>
            if !strTruthy inputPassword then { store := st, ctl := ctl, trace := [] }
            else if some (hashPassword P inputPassword) != category.password then
              { store := st, ctl := ctl, trace := [Event.alert] }
            else
              match st.bookmarks with
              | none => { store := st, ctl := ctl, trace := [Event.uncaught] }
              | some bookmarks =>
                let categoryBookmarks :=
                  bookmarks.filter (fun b => b.categoryId == categoryId && b.encrypted)
                match decryptForUnlock P inputPassword category.salt categoryBookmarks with
                | (ev, none) => { store := st, ctl := ctl, trace := ev ++ [Event.alert] }
                | (ev, some decryptedBookmarks) =>
                  let cache := mapSet ctl.decryptedCache categoryId decryptedBookmarks
                  expand { ctl with decryptedCache := cache } ev
        else expand ctl []
  else
    { store := st,
      ctl := { ctl with
        expandedCategories := setDelete ctl.expandedCategories categoryId,
        decryptedCache := mapDelete ctl.decryptedCache categoryId },
      trace := [] }

/-! ## manageCategoryPassword -/

/-- The user's answers and the random source consumed by one run of
`manageCategoryPassword`: the answer to 'Enter current password to manage:', the answer to
the `confirm` (true is 'Change password'), the answer to the prompt for the password to be
set ('Enter new password:' or 'Enter password for this category'), the random bytes of
`generateSalt`, and the random bytes of the iv of the k-th `encryptBookmark` call. -/
structure ManageInput where
  currentPassword : Option String
  change : Bool
  newPassword : Option String
  saltRnd : Nat → Byte
  ivRnd : Nat → Nat → Byte

/-- The first loop of the change branch: every bookmark that decrypts contributes
`{ id: bookmark.id, data: decrypted }`; a failure is logged and the loop goes on. -/
def decryptForChange (P : Prims) (inputPassword : String) (salt : Option String) :
    List Bookmark → List Event × List (String × Payload)
  | [] => ([], [])
  | bookmark :: rest =>
    let r := decryptForChange P inputPassword salt rest
    match decryptBookmark P bookmark.encryptedData inputPassword salt with
    | none => (decryptCall ++ r.1, r.2)
    | some decrypted => (decryptCall ++ r.1, (bookmark.id, decrypted) :: r.2)

/-- The second loop of the change branch: for each `{ id, data }` the first bookmark with
that id gets a new `encryptedData`; `k` counts the `encryptBookmark` calls made so far.
`none` when `encryptBookmark` throws. -/
def reencryptForChange (P : Prims) (newPassword newSalt : String) (ivRnd : Nat → Nat → Byte) :
    List (String × Payload) → Nat → List Bookmark → List Event × Option (List Bookmark)
  | [], _, bookmarks => ([], some bookmarks)
  | (id, data) :: rest, k, bookmarks =>
    match findIndex (fun b => b.id == id) bookmarks with
    | none => reencryptForChange P newPassword newSalt ivRnd rest k bookmarks
    | some bookmarkIndex =>
      match encryptBookmark P data.url data.title newPassword (some newSalt) (ivRnd k) with
      | none => (encryptCall, none)
      | some encryptedData =>
        let r := reencryptForChange P newPassword newSalt ivRnd rest (k + 1)
          (setAt (fun b => { b with encryptedData := some encryptedData }) bookmarks bookmarkIndex)
        (encryptCall ++ r.1, r.2)

/-- The plaintext object the remove branch stores in place of an encrypted bookmark. -/
def plainVariant (bookmark : Bookmark) (decrypted : Payload) : Bookmark :=
  { id := bookmark.id, categoryId := bookmark.categoryId, domain := bookmark.domain,
    createdAt := bookmark.createdAt, url := decrypted.url, title := decrypted.title,
    encrypted := false, encryptedData := none }

/-- The loop of the remove branch: a bookmark that decrypts replaces the first bookmark with
its id by the plaintext object; a failure is logged and the loop goes on. -/
def decryptForRemove (P : Prims) (inputPassword : String) (salt : Option String) :
    List Bookmark → List Bookmark → List Event × List Bookmark
  | [], bookmarks => ([], bookmarks)
  | bookmark :: rest, bookmarks =>
    match decryptBookmark P bookmark.encryptedData inputPassword salt with
    | none =>
      let r := decryptForRemove P inputPassword salt rest bookmarks
      (decryptCall ++ r.1, r.2)
    | some decrypted =>
      match findIndex (fun b => b.id == bookmark.id) bookmarks with
      | none =>
        let r := decryptForRemove P inputPassword salt rest bookmarks
        (decryptCall ++ r.1, r.2)
      | some bookmarkIndex =>
        let r := decryptForRemove P inputPassword salt rest
          (setAt (fun _ => plainVariant bookmark decrypted) bookmarks bookmarkIndex)
        (decryptCall ++ r.1, r.2)

/-- The encrypted object the set branch (and `bookmarkCurrentPage`) stores. -/
def encryptedVariant (bookmark : Bookmark) (encryptedData : EncryptedData) : Bookmark :=
  { id := bookmark.id, categoryId := bookmark.categoryId, domain := bookmark.domain,
    createdAt := bookmark.createdAt, encrypted := true, encryptedData := some encryptedData,
    url := none, title := none }

/-- The loop of the set branch: each plaintext bookmark of the category is encrypted and the
first bookmark with its id is replaced by the encrypted object; `k` counts the
`encryptBookmark` calls made so far. `none` when `encryptBookmark` throws. -/
def encryptForSet (P : Prims) (password salt : String) (ivRnd : Nat → Nat → Byte) :
    List Bookmark → Nat → List Bookmark → List Event × Option (List Bookmark)
  | [], _, bookmarks => ([], some bookmarks)
  | bookmark :: rest, k, bookmarks =>
    match findIndex (fun b => b.id == bookmark.id) bookmarks with
    | none => encryptForSet P password salt ivRnd rest k bookmarks
    | some bookmarkIndex =>
      match encryptBookmark P bookmark.url bookmark.title password (some salt) (ivRnd k) with
      | none => (encryptCall, none)
      | some encryptedData =>
        let r := encryptForSet P password salt ivRnd rest (k + 1)
          (setAt (fun _ => encryptedVariant bookmark encryptedData) bookmarks bookmarkIndex)
        (encryptCall ++ r.1, r.2)

/-- The method `manageCategoryPassword(categoryId)`. The arrays read from the store are
private copies: they reach the store only through the final `chrome.storage.local.set`. -/
def manageCategoryPassword (P : Prims) (inp : ManageInput) (st : Store) (ctl : Controller)
    (categoryId : String) : Outcome :=
  let categories := st.categories.getD []
  let bookmarks := st.bookmarks.getD []
  let unchanged (ev : List Event) : Outcome := { store := st, ctl := ctl, trace := ev }
  let committed (categories : List Category) (bookmarks : List Bookmark) (c : Controller)
      (ev : List Event) : Outcome :=
    { store := { st with categories := some categories, bookmarks := some bookmarks },
      ctl := c, trace := ev ++ [Event.storageSet] }
  let invalidated : Controller :=
    { ctl with
      derivedKeys := mapDelete ctl.derivedKeys categoryId,
      decryptedCache := mapDelete ctl.decryptedCache categoryId }
  match categories.find? (fun c => c.id == categoryId) with
  | none => unchanged []
  | some category =>
    if truthy category.password then
      match inp.currentPassword with
      | none => unchanged []
      | some inputPassword =>
        if !strTruthy inputPassword then unchanged []
        else if some (hashPassword P inputPassword) != category.password then
          unchanged [Event.alert]
        else if inp.change then
          match inp.newPassword with
          | none => unchanged []
          | some newPassword =>
            if strTruthy newPassword && trimNonEmpty newPassword then
              let categoryBookmarks :=
                bookmarks.filter (fun b => b.categoryId == categoryId && b.encrypted)
              let decryptedBookmarks :=
                decryptForChange P inputPassword category.salt categoryBookmarks
              let newSalt := generateSalt inp.saltRnd
              let categories' := updateCategory
                (fun c => { c with password := some (hashPassword P newPassword),
                                   salt := some newSalt }) categoryId categories
              match reencryptForChange P newPassword newSalt inp.ivRnd
                  decryptedBookmarks.2 0 bookmarks with
              | (ev, none) => unchanged (decryptedBookmarks.1 ++ ev ++ [Event.uncaught])
              | (ev, some bookmarks') =>
                committed categories' bookmarks' invalidated (decryptedBookmarks.1 ++ ev)
            else unchanged []
        else
          let categoryBookmarks :=
            bookmarks.filter (fun b => b.categoryId == categoryId && b.encrypted)
          let r := decryptForRemove P inputPassword category.salt categoryBookmarks bookmarks
          let categories' := updateCategory
            (fun c => { c with password := none, salt := none }) categoryId categories
          committed categories' r.2 invalidated r.1
    else
      match inp.newPassword with
      | none => unchanged []
      | some password =>
        if strTruthy password && trimNonEmpty password then
          let salt := generateSalt inp.saltRnd
          let categories' := updateCategory
            (fun c => { c with password := some (hashPassword P password),
                               salt := some salt }) categoryId categories
          let categoryBookmarks :=
            bookmarks.filter (fun b => b.categoryId == categoryId && !b.encrypted)
          match encryptForSet P password salt inp.ivRnd categoryBookmarks 0 bookmarks with
          | (ev, none) => unchanged (ev ++ [Event.uncaught])
          | (ev, some bookmarks') => committed categories' bookmarks' ctl ev
        else unchanged []

/-! ## getOrCreateCategory and bookmarkCurrentPage -/

/-- The replacement `domain.replace(/^www\./, '')`. -/
def stripWww : List Char → List Char
  | 'w' :: 'w' :: 'w' :: '.' :: rest => rest
  | l => l

/-- The method `formatCategoryName(domain)`: the first label of the host name without a
leading `www.`, its first character in upper case (`toUpperCase` as it acts on the ASCII
letters of a host name). -/
def formatCategoryName (domain : String) : String :=
  let label := (stripWww domain.data).takeWhile (fun c => c != '.')
  String.mk ((label.take 1).map Char.toUpper ++ label.drop 1)

/-- A category as `getOrCreateCategory` creates it: `password: null` and no `salt`. -/
def newCategory (id name : String) (originalDomain : Option String) (createdAt : Nat) :
    Category :=
  { id := id, name := name, originalDomain := originalDomain, createdAt := createdAt,
    password := none, salt := none }

/-- The method `getOrCreateCategory(domain)`; `newId` and `now` are what `generateId()` and
`Date.now()` return if they are called. Returns the category id, the store and the events. -/
def getOrCreateCategory (st : Store) (domain newId : String) (now : Nat) :
    String × Store × List Event :=
  let categories := st.categories.getD []
  let domainCategoryMap := st.domainCategoryMap.getD []
  let autoCreate : String × Store × List Event :=
    (newId,
      { st with
        categories := some (categories ++
          [newCategory newId (formatCategoryName domain) (some domain) now]),
        domainCategoryMap := some (mapSet domainCategoryMap domain newId) },
      [Event.storageSet])
  if truthy (mapGet domainCategoryMap domain) then
    ((mapGet domainCategoryMap domain).getD "", st, [])
  else
    match st.settings with
    | none => autoCreate
    | some settings =>
      if settings.autoCreateCategories then autoCreate
      else
        match categories.find? (fun c => c.name == settings.defaultCategoryName) with
        | some defaultCategory => (defaultCategory.id, st, [])
        | none =>
          (newId,
            { st with categories := some (categories ++
                [newCategory newId settings.defaultCategoryName none now]) },
            [Event.storageSet])

/-- The inputs of one run of `bookmarkCurrentPage`: the url and title of the current tab, the
host name of the url, what `generateId()` and `Date.now()` return inside
`getOrCreateCategory` and for the bookmark, the answer to the password prompt, and the
random bytes of the iv. -/
structure PageInput where
  url : String
  title : String
  domain : String
  newCategoryId : String
  categoryCreatedAt : Nat
  bookmarkId : String
  createdAt : Nat
  password : Option String
  ivRnd : Nat → Byte

/-- The method `bookmarkCurrentPage()`. -/
def bookmarkCurrentPage (P : Prims) (inp : PageInput) (st : Store) (ctl : Controller) :
    Outcome :=
  let bookmarks := st.bookmarks.getD []
  if bookmarks.any (fun b => b.url == some inp.url) then
    { store := st, ctl := ctl, trace := [] }
  else
    let r := getOrCreateCategory st inp.domain inp.newCategoryId inp.categoryCreatedAt
    let categoryId := r.1
    let st1 := r.2.1
    let categories := st1.categories.getD []
    let bookmark : Bookmark :=
      { id := inp.bookmarkId, url := some inp.url, title := some inp.title,
        domain := inp.domain, categoryId := categoryId, createdAt := inp.createdAt,
        encrypted := false, encryptedData := none }
    let stopped (ev : List Event) : Outcome := { store := st1, ctl := ctl, trace := r.2.2 ++ ev }
    let pushed (b : Bookmark) (ev : List Event) : Outcome :=
      { store := { st1 with bookmarks := some (bookmarks ++ [b]) }, ctl := ctl,
        trace := r.2.2 ++ ev ++ [Event.storageSet] }
    match categories.find? (fun c => c.id == categoryId) with
    | none => pushed bookmark []
    | some category =>
      if truthy category.password then
        match inp.password with
        | none => stopped []
        | some password =>
          if !strTruthy password then stopped []
          else if some (hashPassword P password) != category.password then
            stopped [Event.alert]
          else
            match encryptBookmark P bookmark.url bookmark.title password category.salt
                inp.ivRnd with
            | none => stopped (encryptCall ++ [Event.uncaught])
            | some encryptedData => pushed (encryptedVariant bookmark encryptedData) encryptCall
      else pushed bookmark []

/-! ## renameCategory and deleteCategory -/

/-- The method `renameCategory(categoryId)`; `newName` is the answer to the prompt. -/
def renameCategory (newName : Option String) (st : Store) (ctl : Controller)
    (categoryId : String) : Outcome :=
  let categories := st.categories.getD []
  let unchanged : Outcome := { store := st, ctl := ctl, trace := [] }
  match categories.find? (fun c => c.id == categoryId) with
  | none => unchanged
  | some _ =>
    match newName with
    | none => unchanged
    | some newName =>
      if strTruthy newName && trimNonEmpty newName then
        { store := { st with categories := some (updateCategory
            (fun c => { c with name := trim newName }) categoryId categories) },
          ctl := ctl, trace := [Event.storageSet] }
      else unchanged

/-- The user's answers in one run of `deleteCategory`: the password prompt and the
`confirm`. -/
structure DeleteInput where
  password : Option String
  confirmed : Bool

/-- The method `deleteCategory(categoryId)`. -/
def deleteCategory (P : Prims) (inp : DeleteInput) (st : Store) (ctl : Controller)
    (categoryId : String) : Outcome :=
  let categories := st.categories.getD []
  let bookmarks := st.bookmarks.getD []
  let unchanged (ev : List Event) : Outcome := { store := st, ctl := ctl, trace := ev }
  let proceed : Outcome :=
    if !inp.confirmed then unchanged []
    else
      { store := { st with
          categories := some (categories.filter (fun c => c.id != categoryId)),
          bookmarks := some (bookmarks.filter (fun b => b.categoryId != categoryId)),
          domainCategoryMap := some
            ((st.domainCategoryMap.getD []).filter (fun e => e.2 != categoryId)) },
        ctl := ctl, trace := [Event.storageSet] }
  match categories.find? (fun c => c.id == categoryId) with
  | none => unchanged []
  | some category =>
    if truthy category.password then
      match inp.password with
      | none => unchanged []
      | some inputPassword =>
        if !strTruthy inputPassword then unchanged []
        else if some (hashPassword P inputPassword) != category.password then
          unchanged [Event.alert]
        else proceed
    else proceed

/-! ## A concrete instance of the primitives

Small stand-ins for the platform functions, used to evaluate the definitions on concrete
inputs. They satisfy `Prims.CipherLaws` and `Prims.DigestLaw`, and decryption under a
different key or of a changed ciphertext fails. -/

namespace Sample

/-- Three bytes per character. -/
def utf8Encode (s : String) : List Byte :=
  (s.data.map (fun c =>
    [(⟨c.toNat / 65536 % 256, Nat.mod_lt _ (by decide)⟩ : Byte),
      ⟨c.toNat / 256 % 256, Nat.mod_lt _ (by decide)⟩,
      ⟨c.toNat % 256, Nat.mod_lt _ (by decide)⟩])).flatten

/-- The characters of a list of bytes read three at a time. -/
def decodeChars : List Byte → List Char
  | a :: b :: c :: rest => Char.ofNat (a.val * 65536 + b.val * 256 + c.val) :: decodeChars rest
  | _ => []

/-- The inverse of `Sample.utf8Encode`. -/
def utf8Decode (bytes : List Byte) : String :=
  String.mk (decodeChars bytes)

/-- The first 32 bytes of the input followed by zeros. -/
def sha256 (x : List Byte) : List Byte :=
  (x ++ List.replicate 32 0).take 32

/-- The password bytes followed by the salt bytes. -/
def pbkdf2 (password salt : List Byte) : List Byte :=
  password ++ salt

/-- A one-byte tag of key and iv. -/
def tag (key iv : List Byte) : Byte :=
  (key ++ iv).foldl (fun a b => a + b) 0

/-- The tag followed by the plaintext. -/
def aesGcmEncrypt (key iv pt : List Byte) : Option (List Byte) :=
  some (tag key iv :: pt)

/-- Checks the tag and returns the rest. -/
def aesGcmDecrypt (key iv : List Byte) : List Byte → Option (List Byte)
  | [] => none
  | t :: pt => if t = tag key iv then some pt else none

/-- A string as its characters, each after a `1`, closed by a `0`. -/
def writeString (s : List Char) : List Char :=
  (s.map (fun c => ['1', c])).flatten ++ ['0']

/-- An optional string: `N`, or `S` and the string. -/
def writeField : Option String → List Char
  | none => ['N']
  | some s => 'S' :: writeString s.data

/-- Reads what `writeString` wrote and returns it with the rest of the input. -/
def readString : List Char → Option (List Char × List Char)
  | '0' :: rest => some ([], rest)
  | '1' :: c :: rest => (readString rest).map (fun r => (c :: r.1, r.2))
  | _ => none

/-- Reads what `writeField` wrote and returns it with the rest of the input. -/
def readField : List Char → Option (Option String × List Char)
  | 'N' :: rest => some (none, rest)
  | 'S' :: rest => (readString rest).map (fun r => (some (String.mk r.1), r.2))
  | _ => none

/-- The two fields one after the other. -/
def jsonStringify (r : Payload) : String :=
  String.mk (writeField r.url ++ writeField r.title)

/-- The inverse of `Sample.jsonStringify`. -/
def jsonParse (s : String) : Option Payload :=
  match readField s.data with
  | none => none
  | some (url, rest) =>
    match readField rest with
    | some (title, []) => some { url := url, title := title }
    | _ => none

/-- The sample primitives. -/
def prims : Prims :=
  { utf8Encode := utf8Encode, utf8Decode := utf8Decode, sha256 := sha256, pbkdf2 := pbkdf2,
    aesGcmEncrypt := aesGcmEncrypt, aesGcmDecrypt := aesGcmDecrypt,
    jsonStringify := jsonStringify, jsonParse := jsonParse }

/-- A random source that returns the same byte every time. -/
def constRnd (b : Byte) : Nat → Byte :=
  fun _ => b

end Sample

/-- A non-empty string of base-16 digits of even length, such as `generateSalt` returns. -/
def isHexString (s : String) : Bool :=
  !s.data.isEmpty && s.data.length % 2 == 0 && s.data.all (fun c => (hexDigitVal c).isSome)

/-! ## Stored states used to evaluate the workflows -/

namespace Sample

/-- A controller with nothing expanded and nothing cached. -/
def emptyCtl : Controller :=
  { expandedCategories := [], decryptedCache := [], derivedKeys := [] }

/-- A bookmark in the plaintext variant. -/
def plainBookmark (id categoryId url title : String) : Bookmark :=
  { id := id, categoryId := categoryId, domain := "a.example", createdAt := 1,
    encrypted := false, url := some url, title := some title, encryptedData := none }

/-- A bookmark in the encrypted variant, sealed under `password` and `salt`. -/
def sealedBookmark (id categoryId url title password salt : String) : Bookmark :=
  { id := id, categoryId := categoryId, domain := "a.example", createdAt := 1,
    encrypted := true, url := none, title := none,
    encryptedData :=
      encryptBookmark prims (some url) (some title) password (some salt) (constRnd 1) }

/-- A bookmark in the encrypted variant whose ciphertext does not authenticate. -/
def corruptBookmark (id categoryId : String) : Bookmark :=
  { id := id, categoryId := categoryId, domain := "a.example", createdAt := 1,
    encrypted := true, url := none, title := none,
    encryptedData := some { ciphertext := "00", iv := "00" } }

/-- A category without a password. -/
def openCategory (id : String) : Category :=
  { id := id, name := "A", originalDomain := some "a.example", createdAt := 1,
    password := none, salt := none }

/-- A category protected by `password`. -/
def protectedCategory (id password salt : String) : Category :=
  { id := id, name := "A", originalDomain := some "a.example", createdAt := 1,
    password := some (hashPassword prims password), salt := some salt }

/-- A protected category with one sound and one corrupted bookmark. -/
def damagedStore : Store :=
  { categories := some [protectedCategory "c1" "old" "0a"],
    bookmarks := some [sealedBookmark "b1" "c1" "https://a.example/1" "One" "old" "0a",
                       corruptBookmark "b2" "c1"],
    domainCategoryMap := some [("a.example", "c1")],
    settings := none }

/-- The user enters the current password `old`, chooses 'Change password' and enters `new`. -/
def changeInput : ManageInput :=
  { currentPassword := some "old", change := true, newPassword := some "new",
    saltRnd := constRnd 3, ivRnd := fun _ => constRnd 5 }

/-- The user enters the current password `old` and chooses 'Remove password'. -/
def removeInput : ManageInput :=
  { currentPassword := some "old", change := false, newPassword := none,
    saltRnd := constRnd 3, ivRnd := fun _ => constRnd 5 }

end Sample

/-! ## Predicates on stored states -/

/-- The verifier is present exactly when the salt is: `password.isSome == salt.isSome`. -/
def Category.verifierSaltAgree (c : Category) : Bool :=
  c.password.isSome == c.salt.isSome

/-- Every stored category satisfies `Category.verifierSaltAgree`. -/
def Store.verifierSaltInvariant (st : Store) : Bool :=
  (st.categories.getD []).all Category.verifierSaltAgree

/-- How a completed set branch relates a stored bookmark `x` to the bookmark `x'` stored in its
place: a plaintext bookmark of the category is replaced by its encrypted object, any other
bookmark is kept. -/
def SetRel (P : Prims) (categoryId password salt : String) (x x' : Bookmark) : Prop :=
  if x.categoryId = categoryId ∧ x.encrypted = false then
    ∃ ed rnd, encryptBookmark P x.url x.title password (some salt) rnd = some ed ∧
      x' = encryptedVariant x ed
  else x' = x

/-- The record that `toggleCategory` caches for a bookmark whose payload is `url`, `title`. -/
def cachedOf (b : Bookmark) (d : Payload) : CachedBookmark :=
  { id := b.id, url := d.url, title := d.title }

/-- Two bookmarks of different categories that share an id; both categories are unprotected. -/
def Sample.sharedIdStore : Store :=
  { categories := some [Sample.openCategory "c1", Sample.openCategory "c2"],
    bookmarks := some [Sample.plainBookmark "b1" "c2" "https://a.example/2" "Two",
                       Sample.plainBookmark "b1" "c1" "https://a.example/1" "One"],
    domainCategoryMap := none,
    settings := none }

/-- An unprotected category with two plaintext bookmarks. -/
def Sample.openStore : Store :=
  { categories := some [Sample.openCategory "c1"],
    bookmarks := some [Sample.plainBookmark "b1" "c1" "https://a.example/1" "One",
                       Sample.plainBookmark "b2" "c1" "https://a.example/2" "Two"],
    domainCategoryMap := none,
    settings := none }

/-- The user enters `pw` as the password to set. -/
def Sample.setInput : ManageInput :=
  { currentPassword := none, change := false, newPassword := some "pw",
    saltRnd := Sample.constRnd 3, ivRnd := fun _ => Sample.constRnd 5 }

/-- How a completed change branch relates a stored bookmark `x` to the bookmark `x'` stored in
its place: an encrypted bookmark of the category that decrypts under the old password gets
the `encryptedData` of its payload under the new password and salt, any other bookmark is
kept. -/
def ChangeRel (P : Prims) (categoryId oldPassword : String) (oldSalt : Option String)
    (newPassword newSalt : String) (x x' : Bookmark) : Prop :=
  if x.categoryId = categoryId ∧ x.encrypted = true then
    match decryptBookmark P x.encryptedData oldPassword oldSalt with
    | some d => ∃ ed rnd,
        encryptBookmark P d.url d.title newPassword (some newSalt) rnd = some ed ∧
        x' = { x with encryptedData := some ed }
    | none => x' = x
  else x' = x

/-- How the remove branch relates a stored bookmark `x` to the bookmark `x'` stored in its
place: an encrypted bookmark of the category that decrypts is replaced by its plaintext
object, any other bookmark is kept. -/
def RemoveRel (P : Prims) (categoryId password : String) (salt : Option String)
    (x x' : Bookmark) : Prop :=
  if x.categoryId = categoryId ∧ x.encrypted = true then
    match decryptBookmark P x.encryptedData password salt with
    | some d => x' = plainVariant x d
    | none => x' = x
  else x' = x

/-- A protected category with two sound bookmarks. -/
def Sample.sealedStore : Store :=
  { categories := some [Sample.protectedCategory "c1" "old" "0a"],
    bookmarks := some [Sample.sealedBookmark "b1" "c1" "https://a.example/1" "One" "old" "0a",
                       Sample.sealedBookmark "b2" "c1" "https://a.example/2" "Two" "old" "0a"],
    domainCategoryMap := none,
    settings := none }

/-- A protected category whose bookmark shares its id with an earlier bookmark of another,
unprotected, category. -/
def Sample.sharedIdSealedStore : Store :=
  { categories := some [Sample.protectedCategory "c1" "old" "0a", Sample.openCategory "c2"],
    bookmarks := some [Sample.plainBookmark "b1" "c2" "https://a.example/2" "Two",
                       Sample.sealedBookmark "b1" "c1" "https://a.example/1" "One" "old" "0a"],
    domainCategoryMap := none,
    settings := none }

/-- The category is fully protected in a list of bookmarks: verifier and salt are present
(truthy, the test the code applies to `category.password`) and every bookmark of the
category has `encrypted = true`. -/
def Category.fullyProtected (c : Category) (bookmarks : List Bookmark) : Bool :=
  truthy c.password && truthy c.salt &&
    bookmarks.all (fun b => b.categoryId != c.id || b.encrypted)

/-- The category is fully unprotected in a list of bookmarks: verifier and salt are absent
and every bookmark of the category has `encrypted = false`. -/
def Category.fullyUnprotected (c : Category) (bookmarks : List Bookmark) : Bool :=
  !truthy c.password && !truthy c.salt &&
    bookmarks.all (fun b => b.categoryId != c.id || !b.encrypted)

/-- Lifecycle exclusivity of lists of categories and bookmarks. -/
def exclusive (categories : List Category) (bookmarks : List Bookmark) : Bool :=
  categories.all (fun c => c.fullyProtected bookmarks || c.fullyUnprotected bookmarks)

/-- Lifecycle exclusivity of the persisted state: every stored category is fully protected
or fully unprotected. -/
def Store.lifecycleExclusive (st : Store) : Bool :=
  exclusive (st.categories.getD []) (st.bookmarks.getD [])

/-- The user opens a page of `b.example` that is not bookmarked yet. -/
def Sample.pageInput : PageInput :=
  { url := "https://b.example/", title := "B", domain := "b.example",
    newCategoryId := "c9", categoryCreatedAt := 2, bookmarkId := "b9", createdAt := 3,
    password := none, ivRnd := Sample.constRnd 5 }

/-- The answer to a prompt counts as a cancellation: the test `!inputPassword` holds when the
prompt returned `null` or the empty string. -/
def cancelled : Option String → Bool
  | none => true
  | some s => !strTruthy s

/-- The constructor of `BookmarkManager`: an empty set and two empty maps. -/
def Controller.initial : Controller :=
  { expandedCategories := [], decryptedCache := [], derivedKeys := [] }

/-- The collapse branch of `toggleCategory(categoryId)`: `expandedCategories.delete` and
`decryptedCache.delete`. -/
def collapse (ctl : Controller) (categoryId : String) : Controller :=
  { ctl with
    expandedCategories := setDelete ctl.expandedCategories categoryId,
    decryptedCache := mapDelete ctl.decryptedCache categoryId }

/-- The controller states the program can be in: the state the constructor builds, and the
state after a run of a method that touches `expandedCategories`, `decryptedCache` or
`derivedKeys`, started in such a state with any store and any answers of the user. -/
inductive Reachable (P : Prims) : Controller → Prop where
  | initial : Reachable P Controller.initial
  | toggle (inputPassword : Option String) (st : Store) (ctl : Controller)
      (categoryId : String) :
      Reachable P ctl → Reachable P (toggleCategory P inputPassword st ctl categoryId).ctl
  | manage (inp : ManageInput) (st : Store) (ctl : Controller) (categoryId : String) :
      Reachable P ctl → Reachable P (manageCategoryPassword P inp st ctl categoryId).ctl

/-- Primitives whose `crypto.subtle.encrypt` always rejects. -/
def Sample.failingPrims : Prims :=
  { Sample.prims with aesGcmEncrypt := fun _ _ _ => none }

/-- The user cancels every prompt. -/
def Sample.cancelInput : ManageInput :=
  { currentPassword := none, change := true, newPassword := none,
    saltRnd := Sample.constRnd 3, ivRnd := fun _ => Sample.constRnd 5 }

/-- The user enters the wrong current password `bad`. -/
def Sample.wrongInput : ManageInput :=
  { currentPassword := some "bad", change := true, newPassword := some "new",
    saltRnd := Sample.constRnd 3, ivRnd := fun _ => Sample.constRnd 5 }

/-- The user enters the current password `old`, chooses 'Change password' and cancels the
prompt for the new password. -/
def Sample.changeCancelInput : ManageInput :=
  { currentPassword := some "old", change := true, newPassword := some "",
    saltRnd := Sample.constRnd 3, ivRnd := fun _ => Sample.constRnd 5 }

/-- The n-th of the sixteen lowercase hex digits. -/
def lowerHexDigit (n : Nat) : Char :=
  "0123456789abcdef".data.getD n '0'

/-- The hex encoding as the specification words it: each byte as two lowercase hex digits,
zero-padded, concatenated. -/
def specHexEncode (bytes : List Byte) : String :=
  String.mk (bytes.map (fun b => [lowerHexDigit (b.val / 16), lowerHexDigit (b.val % 16)])).flatten

/-- The controller after `c1` of `Sample.sealedStore` was unlocked from the initial state:
`c1` is expanded and has a cache entry. -/
def Sample.unlockedCtl : Controller :=
  (toggleCategory Sample.prims (some "old") Sample.sealedStore Controller.initial "c1").ctl

/-- A protected category `c1` with one sound bookmark and an unprotected category `c2` with
one plaintext bookmark. -/
def Sample.twoCategoryStore : Store :=
  { categories := some [Sample.protectedCategory "c1" "old" "0a", Sample.openCategory "c2"],
    bookmarks := some [Sample.sealedBookmark "b1" "c1" "https://a.example/1" "One" "old" "0a",
                       Sample.plainBookmark "b2" "c2" "https://a.example/2" "Two"],
    domainCategoryMap := none,
    settings := none }

/-! ## The hex codec is a round trip -/

set_option maxRecDepth 1000000 in
theorem byteToHex_decode : ∀ b : Byte,
    (match byteToHex b with
      | [c, d] => !isLineTerminator c && !isLineTerminator d &&
          decide (toUint8 (parseInt16 [c, d]) = b)
      | _ => false) = true := by
  decide

theorem byteToHex_shape (b : Byte) : ∃ c d, byteToHex b = [c, d] ∧
    isLineTerminator c = false ∧ isLineTerminator d = false ∧
    toUint8 (parseInt16 [c, d]) = b := by
  have h := byteToHex_decode b
  split at h
  · rename_i c d heq
    simp only [Bool.and_eq_true, Bool.not_eq_true', decide_eq_true_eq] at h
    exact ⟨c, d, heq, h.1.1, h.1.2, h.2⟩
  · simp at h

theorem matchChunks_hex (bs : List Byte) :
    matchChunks (bs.map byteToHex).flatten = bs.map byteToHex := by
  induction bs with
  | nil => rfl
  | cons b bs ih =>
    obtain ⟨c, d, hcd, hc, hd, -⟩ := byteToHex_shape b
    simp [hcd, matchChunks, hc, hd, ih]

theorem hexToBytes_toHex (bs : List Byte) (h : bs ≠ []) : hexToBytes (toHex bs) = some bs := by
  unfold hexToBytes toHex
  simp only [matchChunks_hex]
  cases bs with
  | nil => exact absurd rfl h
  | cons b bs =>
    simp only [List.map_cons]
    congr 1
    have key : ∀ l : List Byte, (l.map byteToHex).map (fun c => toUint8 (parseInt16 c)) = l := by
      intro l
      induction l with
      | nil => rfl
      | cons x xs ih =>
        obtain ⟨c, d, hcd, -, -, hx⟩ := byteToHex_shape x
        simp [hcd, hx, ih]
    simpa using key (b :: bs)

/-! ## The sample primitives satisfy the laws -/

theorem char_toNat_lt (c : Char) : c.toNat < 16777216 := by
  have h := c.valid
  have : c.toNat = c.val.toNat := rfl
  simp only [UInt32.isValidChar] at h
  omega

theorem Sample.decodeChars_encode (l : List Char) :
    Sample.decodeChars (l.map (fun c =>
    [(⟨c.toNat / 65536 % 256, Nat.mod_lt _ (by decide)⟩ : Byte),
      ⟨c.toNat / 256 % 256, Nat.mod_lt _ (by decide)⟩,
      ⟨c.toNat % 256, Nat.mod_lt _ (by decide)⟩])).flatten = l := by
  induction l with
  | nil => rfl
  | cons c cs ih =>
    have hc := char_toNat_lt c
    have e : c.toNat / 65536 % 256 * 65536 + c.toNat / 256 % 256 * 256 + c.toNat % 256 = c.toNat := by
      omega
    simp only [List.map_cons, List.flatten_cons, List.cons_append, List.nil_append,
      Sample.decodeChars, e, Char.ofNat_toNat]
    exact congrArg _ ih

theorem Sample.utf8_roundtrip (s : String) : Sample.utf8Decode (Sample.utf8Encode s) = s := by
  unfold Sample.utf8Decode Sample.utf8Encode
  rw [Sample.decodeChars_encode]

theorem Sample.readString_write (s rest : List Char) :
    Sample.readString (Sample.writeString s ++ rest) = some (s, rest) := by
  induction s with
  | nil => simp [Sample.writeString, Sample.readString]
  | cons c cs ih =>
    simp only [Sample.writeString] at ih ⊢
    simp only [List.append_assoc, List.singleton_append] at ih
    simp [Sample.readString, ih]

theorem Sample.readField_write (f : Option String) (rest : List Char) :
    Sample.readField (Sample.writeField f ++ rest) = some (f, rest) := by
  cases f with
  | none => simp [Sample.writeField, Sample.readField]
  | some s => simp [Sample.writeField, Sample.readField, Sample.readString_write]

theorem Sample.json_roundtrip (r : Payload) :
    Sample.jsonParse (Sample.jsonStringify r) = some r := by
  unfold Sample.jsonParse Sample.jsonStringify
  have h2 := Sample.readField_write r.title []
  simp only [List.append_nil] at h2
  simp [Sample.readField_write, h2]

theorem Sample.cipherLaws : Sample.prims.CipherLaws where
  utf8_roundtrip := Sample.utf8_roundtrip
  json_roundtrip := Sample.json_roundtrip
  aes_roundtrip := by
    intro key iv pt
    exact ⟨Sample.tag key iv :: pt, rfl, by simp, by simp [Sample.prims, Sample.aesGcmDecrypt]⟩

theorem Sample.digestLaw : Sample.prims.DigestLaw := by
  intro x
  simp [Sample.prims, Sample.sha256]

/-! ## Round trip of the record cipher -/

theorem getRandomValues_ne_nil (n : Nat) (rnd : Nat → Byte) (h : 0 < n) :
    getRandomValues n rnd ≠ [] := by
  intro e
  have := congrArg List.length e
  simp [getRandomValues] at this
  omega

theorem hexDigit_not_lineTerminator (c : Char) (h : (hexDigitVal c).isSome = true) :
    isLineTerminator c = false := by
  cases hlt : isLineTerminator c with
  | false => rfl
  | true =>
    exfalso
    simp only [isLineTerminator, Bool.or_eq_true, beq_iff_eq] at hlt
    have hc : c = Char.ofNat c.toNat := (Char.ofNat_toNat c).symm
    rcases hlt with ((h1 | h1) | h1) | h1 <;> rw [h1] at hc <;> subst hc <;> revert h <;> decide

theorem matchChunks_ne_nil (c : Char) (rest : List Char) (h : isLineTerminator c = false) :
    matchChunks (c :: rest) ≠ [] := by
  cases rest with
  | nil => simp [matchChunks, h]
  | cons d r =>
    by_cases hd : isLineTerminator d = true <;> simp [matchChunks, h, hd]

theorem hexToBytes_isSome_of_first (c : Char) (rest : List Char)
    (h : isLineTerminator c = false) : ∃ bs, hexToBytes (String.mk (c :: rest)) = some bs := by
  unfold hexToBytes
  have := matchChunks_ne_nil c rest h
  cases hm : matchChunks (c :: rest) with
  | nil => exact absurd hm this
  | cons x xs => exact ⟨_, rfl⟩

theorem hexToBytes_isHexString (s : String) (h : isHexString s = true) :
    ∃ bs, hexToBytes s = some bs := by
  obtain ⟨l⟩ := s
  cases l with
  | nil => simp [isHexString] at h
  | cons c rest =>
    apply hexToBytes_isSome_of_first
    apply hexDigit_not_lineTerminator
    simp [isHexString] at h
    simp [h.2.1]

theorem encrypt_then_decrypt (P : Prims) (hP : P.CipherLaws) (url title : Option String)
    (password salt : String) (rnd : Nat → Byte) (saltBytes : List Byte)
    (hsalt : hexToBytes salt = some saltBytes) :
    ∃ ed, encryptBookmark P url title password (some salt) rnd = some ed ∧
      decryptBookmark P (some ed) password (some salt) = some { url := url, title := title } := by
  obtain ⟨ct, henc, hne, hdec⟩ := hP.aes_roundtrip
    (P.pbkdf2 (P.utf8Encode password) saltBytes) (getRandomValues 12 rnd)
    (P.utf8Encode (P.jsonStringify { url := url, title := title }))
  refine ⟨{ ciphertext := toHex ct, iv := toHex (getRandomValues 12 rnd) }, ?_, ?_⟩
  · simp [encryptBookmark, deriveKey, hsalt, henc]
  · simp [decryptBookmark, deriveKey, hsalt, hexToBytes_toHex ct hne,
      hexToBytes_toHex _ (getRandomValues_ne_nil 12 rnd (by decide)), hdec,
      hP.utf8_roundtrip, hP.json_roundtrip]

/-- C1 (round trip). Under the cipher laws, for every url, title, password, random source and
every salt that is a non-empty even-length hex string, `encryptBookmark` returns an
`encryptedData`, and `decryptBookmark` on a bookmark carrying it, with the same password and
salt, returns exactly `{url, title}`. -/
theorem encryptBookmark_decryptBookmark_roundtrip (P : Prims) (hP : P.CipherLaws)
    (url title password salt : String) (rnd : Nat → Byte) (hsalt : isHexString salt = true) :
    ∃ ed, encryptBookmark P (some url) (some title) password (some salt) rnd = some ed ∧
      decryptBookmark P (some ed) password (some salt) =
        some { url := some url, title := some title } := by
  obtain ⟨bs, hbs⟩ := hexToBytes_isHexString salt hsalt
  exact encrypt_then_decrypt P hP (some url) (some title) password salt rnd bs hbs

theorem encryptBookmark_decryptBookmark_roundtrip_witness :
    isHexString "00ff" = true ∧
    ∃ ed, encryptBookmark Sample.prims (some "https://a.example/") (some "A") "pw" (some "00ff")
        (Sample.constRnd 7) = some ed ∧
      decryptBookmark Sample.prims (some ed) "pw" (some "00ff") =
        some { url := some "https://a.example/", title := some "A" } :=
  ⟨by decide, encryptBookmark_decryptBookmark_roundtrip Sample.prims Sample.cipherLaws
    "https://a.example/" "A" "pw" "00ff" (Sample.constRnd 7) (by decide)⟩

/-! ## Decryption failures in the change and remove branches -/

set_option maxRecDepth 1000000 in
/-- C2 (evaluation at the failing input). A protected category holds a sound bookmark `b1`
and a bookmark `b2` whose ciphertext does not authenticate. With the correct old password,
the change branch of `manageCategoryPassword` still calls `chrome.storage.local.set`: the
stored category gets the verifier of the new password and a new salt, while `b2` keeps its
old ciphertext. -/
theorem changePassword_commits_despite_decrypt_failure :
    truthy (Sample.protectedCategory "c1" "old" "0a").password = true ∧
    some (hashPassword Sample.prims "old") = (Sample.protectedCategory "c1" "old" "0a").password ∧
    decryptBookmark Sample.prims (Sample.corruptBookmark "b2" "c1").encryptedData "old"
      (some "0a") = none ∧
    (manageCategoryPassword Sample.prims Sample.changeInput Sample.damagedStore
      Sample.emptyCtl "c1").store ≠ Sample.damagedStore ∧
    (manageCategoryPassword Sample.prims Sample.changeInput Sample.damagedStore
      Sample.emptyCtl "c1").store.categories =
        some [Sample.protectedCategory "c1" "new" (generateSalt (Sample.constRnd 3))] ∧
    ((manageCategoryPassword Sample.prims Sample.changeInput Sample.damagedStore
      Sample.emptyCtl "c1").store.bookmarks.getD []).contains (Sample.corruptBookmark "b2" "c1")
      = true ∧
    Event.storageSet ∈ (manageCategoryPassword Sample.prims Sample.changeInput
      Sample.damagedStore Sample.emptyCtl "c1").trace := by
  decide

set_option maxRecDepth 1000000 in
/-- C3 (evaluation at the failing input). On the same store, with the correct password, the
remove branch of `manageCategoryPassword` still calls `chrome.storage.local.set`: the stored
category loses verifier and salt, `b1` is stored in plaintext, and `b2` stays in its
encrypted form. -/
theorem removePassword_commits_despite_decrypt_failure :
    truthy (Sample.protectedCategory "c1" "old" "0a").password = true ∧
    some (hashPassword Sample.prims "old") = (Sample.protectedCategory "c1" "old" "0a").password ∧
    decryptBookmark Sample.prims (Sample.corruptBookmark "b2" "c1").encryptedData "old"
      (some "0a") = none ∧
    (manageCategoryPassword Sample.prims Sample.removeInput Sample.damagedStore
      Sample.emptyCtl "c1").store =
      { Sample.damagedStore with
        categories := some [Sample.openCategory "c1"],
        bookmarks := some [Sample.plainBookmark "b1" "c1" "https://a.example/1" "One",
                           Sample.corruptBookmark "b2" "c1"] } ∧
    Event.storageSet ∈ (manageCategoryPassword Sample.prims Sample.removeInput
      Sample.damagedStore Sample.emptyCtl "c1").trace := by
  decide

/-! ## Unlocking -/

theorem decryptForUnlock_fails (P : Prims) (pw : String) (salt : Option String)
    (l : List Bookmark)
    (h : ∃ b ∈ l, decryptBookmark P b.encryptedData pw salt = none) :
    (decryptForUnlock P pw salt l).2 = none := by
  induction l with
  | nil => simp at h
  | cons x xs ih =>
    unfold decryptForUnlock
    cases hx : decryptBookmark P x.encryptedData pw salt with
    | none => rfl
    | some d =>
      obtain ⟨b, hb, hbd⟩ := h
      have hb' : b ∈ xs := by
        rcases List.mem_cons.1 hb with rfl | hb'
        · rw [hx] at hbd; cases hbd
        · exact hb'
      simp [ih ⟨b, hb', hbd⟩]

theorem not_mem_setDelete (s : List String) (x : String) : x ∉ setDelete s x := by
  simp [setDelete]

/-- C5 (unlock with a wrong password changes nothing). For a collapsed category whose stored
verifier is truthy and an entered password whose `hashPassword` digest differs from it,
`toggleCategory` leaves the controller (`expandedCategories`, `decryptedCache`,
`derivedKeys`) and the store as they were, and makes no `decryptBookmark` or `deriveKey`
call. -/
theorem toggleCategory_wrong_password (P : Prims) (st : Store) (ctl : Controller)
    (categoryId inputPassword : String) (categories : List Category) (category : Category)
    (hcollapsed : ctl.expandedCategories.contains categoryId = false)
    (hcats : st.categories = some categories)
    (hfind : categories.find? (fun c => c.id == categoryId) = some category)
    (hprot : truthy category.password = true)
    (hwrong : some (hashPassword P inputPassword) ≠ category.password) :
    (toggleCategory P (some inputPassword) st ctl categoryId).ctl = ctl ∧
    (toggleCategory P (some inputPassword) st ctl categoryId).store = st ∧
    Event.decryptBookmark ∉ (toggleCategory P (some inputPassword) st ctl categoryId).trace ∧
    Event.deriveKey ∉ (toggleCategory P (some inputPassword) st ctl categoryId).trace := by
  have hne : (some (hashPassword P inputPassword) != category.password) = true := by
    simpa using hwrong
  unfold toggleCategory
  simp only [hcollapsed, hcats, hfind, hprot, hne]
  by_cases ht : strTruthy inputPassword = true <;> simp [ht]

theorem toggleCategory_wrong_password_witness :
    (toggleCategory Sample.prims (some "bad") Sample.damagedStore Sample.emptyCtl "c1").ctl =
      Sample.emptyCtl ∧
    (toggleCategory Sample.prims (some "bad") Sample.damagedStore Sample.emptyCtl "c1").store =
      Sample.damagedStore ∧
    Event.decryptBookmark ∉
      (toggleCategory Sample.prims (some "bad") Sample.damagedStore Sample.emptyCtl "c1").trace ∧
    Event.deriveKey ∉
      (toggleCategory Sample.prims (some "bad") Sample.damagedStore Sample.emptyCtl "c1").trace :=
  toggleCategory_wrong_password Sample.prims Sample.damagedStore Sample.emptyCtl "c1" "bad"
    [Sample.protectedCategory "c1" "old" "0a"] (Sample.protectedCategory "c1" "old" "0a")
    (by decide) rfl (by decide) (by decide) (by decide)

/-- C6 (unlock is all-or-nothing). For a protected category and the correct password, if
`decryptBookmark` fails for one encrypted bookmark of the category, then after
`toggleCategory` the category is not in `expandedCategories`, and `decryptedCache` is either
untouched or has lost the category's entry: no entry was stored. The store is unchanged. -/
theorem toggleCategory_decrypt_failure (P : Prims) (st : Store) (ctl : Controller)
    (categoryId inputPassword : String) (categories : List Category) (category : Category)
    (bookmarks : List Bookmark) (bad : Bookmark)
    (hcats : st.categories = some categories)
    (hfind : categories.find? (fun c => c.id == categoryId) = some category)
    (hprot : truthy category.password = true)
    (hright : some (hashPassword P inputPassword) = category.password)
    (hbms : st.bookmarks = some bookmarks)
    (hmem : bad ∈ bookmarks) (hcat : bad.categoryId = categoryId) (henc : bad.encrypted = true)
    (hfail : decryptBookmark P bad.encryptedData inputPassword category.salt = none) :
    (toggleCategory P (some inputPassword) st ctl categoryId).ctl.expandedCategories.contains
      categoryId = false ∧
    ((toggleCategory P (some inputPassword) st ctl categoryId).ctl.decryptedCache =
        ctl.decryptedCache ∨
      (toggleCategory P (some inputPassword) st ctl categoryId).ctl.decryptedCache =
        mapDelete ctl.decryptedCache categoryId) ∧
    (toggleCategory P (some inputPassword) st ctl categoryId).store = st := by
  have heq : (some (hashPassword P inputPassword) != category.password) = false := by
    simp [hright]
  have hloop := decryptForUnlock_fails P inputPassword category.salt
    (bookmarks.filter (fun b => b.categoryId == categoryId && b.encrypted))
    ⟨bad, by simp [List.mem_filter, hmem, hcat, henc], hfail⟩
  unfold toggleCategory
  cases hexp : ctl.expandedCategories.contains categoryId with
  | true =>
    simp [not_mem_setDelete]
  | false =>
    have hexp' : categoryId ∉ ctl.expandedCategories := by simpa using hexp
    simp only [hcats, hfind, hprot, heq, hbms]
    by_cases ht : strTruthy inputPassword = true
    · generalize hr : decryptForUnlock P inputPassword category.salt
        (bookmarks.filter (fun b => b.categoryId == categoryId && b.encrypted)) = r at hloop
      obtain ⟨ev, res⟩ := r
      simp only at hloop
      subst hloop
      simp [ht, hexp']
    · simp [ht, hexp']

theorem toggleCategory_decrypt_failure_witness :
    (toggleCategory Sample.prims (some "old") Sample.damagedStore Sample.emptyCtl
      "c1").ctl.expandedCategories.contains "c1" = false ∧
    ((toggleCategory Sample.prims (some "old") Sample.damagedStore Sample.emptyCtl
        "c1").ctl.decryptedCache = Sample.emptyCtl.decryptedCache ∨
      (toggleCategory Sample.prims (some "old") Sample.damagedStore Sample.emptyCtl
        "c1").ctl.decryptedCache = mapDelete Sample.emptyCtl.decryptedCache "c1") ∧
    (toggleCategory Sample.prims (some "old") Sample.damagedStore Sample.emptyCtl "c1").store =
      Sample.damagedStore :=
  toggleCategory_decrypt_failure Sample.prims Sample.damagedStore Sample.emptyCtl "c1" "old"
    [Sample.protectedCategory "c1" "old" "0a"] (Sample.protectedCategory "c1" "old" "0a")
    [Sample.sealedBookmark "b1" "c1" "https://a.example/1" "One" "old" "0a",
      Sample.corruptBookmark "b2" "c1"]
    (Sample.corruptBookmark "b2" "c1")
    rfl (by decide) (by decide) (by decide) rfl (by decide) rfl rfl (by decide)

/-! ## Verifier and salt -/

theorem all_updateCategory (p : Category → Bool) (f : Category → Category) (cid : String)
    (l : List Category) (hf : ∀ c, p (f c) = true) (h : l.all p = true) :
    (updateCategory f cid l).all p = true := by
  induction l with
  | nil => rfl
  | cons c cs ih =>
    simp only [List.all_cons, Bool.and_eq_true] at h
    unfold updateCategory
    split
    · simp [hf, h.2]
    · simp [h.1, ih h.2]

theorem all_updateCategory_of_imp (p : Category → Bool) (f : Category → Category) (cid : String)
    (l : List Category) (hf : ∀ c, p c = true → p (f c) = true) (h : l.all p = true) :
    (updateCategory f cid l).all p = true := by
  induction l with
  | nil => rfl
  | cons c cs ih =>
    simp only [List.all_cons, Bool.and_eq_true] at h
    unfold updateCategory
    split
    · simp [hf c h.1, h.2]
    · simp [h.1, ih h.2]

theorem all_filter_of_all {α : Type} (p q : α → Bool) (l : List α) (h : l.all p = true) :
    (l.filter q).all p = true := by
  simp only [List.all_eq_true, List.mem_filter] at h ⊢
  exact fun x hx => h x hx.1

theorem getOrCreateCategory_verifierSalt (st : Store) (domain newId : String) (now : Nat)
    (h : st.verifierSaltInvariant = true) :
    (getOrCreateCategory st domain newId now).2.1.verifierSaltInvariant = true := by
  unfold Store.verifierSaltInvariant at h ⊢
  unfold getOrCreateCategory
  simp only []
  repeat' split
  all_goals first
    | exact h
    | simp [List.all_append, h, newCategory, Category.verifierSaltAgree]

theorem manageCategoryPassword_verifierSalt (P : Prims) (inp : ManageInput) (st : Store)
    (ctl : Controller) (cid : String) (h : st.verifierSaltInvariant = true) :
    (manageCategoryPassword P inp st ctl cid).store.verifierSaltInvariant = true := by
  unfold Store.verifierSaltInvariant at h ⊢
  unfold manageCategoryPassword
  simp only []
  repeat' split
  all_goals first
    | exact h
    | exact all_updateCategory _ _ _ _ (fun c => by simp [Category.verifierSaltAgree]) h

theorem renameCategory_verifierSalt (newName : Option String) (st : Store)
    (ctl : Controller) (cid : String) (h : st.verifierSaltInvariant = true) :
    (renameCategory newName st ctl cid).store.verifierSaltInvariant = true := by
  unfold Store.verifierSaltInvariant at h ⊢
  unfold renameCategory
  simp only []
  repeat' split
  all_goals first
    | exact h
    | exact all_updateCategory_of_imp _ _ _ _
        (fun c hc => by simpa [Category.verifierSaltAgree] using hc) h

theorem deleteCategory_verifierSalt (P : Prims) (inp : DeleteInput) (st : Store)
    (ctl : Controller) (cid : String) (h : st.verifierSaltInvariant = true) :
    (deleteCategory P inp st ctl cid).store.verifierSaltInvariant = true := by
  unfold Store.verifierSaltInvariant at h ⊢
  unfold deleteCategory
  simp only []
  repeat' split
  all_goals first
    | exact h
    | exact all_filter_of_all _ _ _ h

/-- C10 (verifier/salt presence). If every stored category has its verifier present exactly
when its salt is present, the same holds of the store after `getOrCreateCategory`, after
`manageCategoryPassword` (set, change or remove, completed or not), after `renameCategory`
and after `deleteCategory`; and a category as `getOrCreateCategory` creates it has
neither. -/
theorem verifierSalt_invariant_preserved (P : Prims) (st : Store) (ctl : Controller)
    (h : st.verifierSaltInvariant = true)
    (id name domain newId categoryId : String) (originalDomain newName : Option String)
    (createdAt now : Nat) (manageInp : ManageInput) (deleteInp : DeleteInput) :
    (newCategory id name originalDomain createdAt).verifierSaltAgree = true ∧
    (getOrCreateCategory st domain newId now).2.1.verifierSaltInvariant = true ∧
    (manageCategoryPassword P manageInp st ctl categoryId).store.verifierSaltInvariant = true ∧
    (renameCategory newName st ctl categoryId).store.verifierSaltInvariant = true ∧
    (deleteCategory P deleteInp st ctl categoryId).store.verifierSaltInvariant = true :=
  ⟨rfl,
    getOrCreateCategory_verifierSalt st domain newId now h,
    manageCategoryPassword_verifierSalt P manageInp st ctl categoryId h,
    renameCategory_verifierSalt newName st ctl categoryId h,
    deleteCategory_verifierSalt P deleteInp st ctl categoryId h⟩

theorem verifierSalt_invariant_preserved_witness :
    Sample.damagedStore.verifierSaltInvariant = true ∧
    (newCategory "c9" "B" (some "b.example") 2).verifierSaltAgree = true ∧
    (getOrCreateCategory Sample.damagedStore "b.example" "c9" 2).2.1.verifierSaltInvariant
      = true ∧
    (manageCategoryPassword Sample.prims Sample.changeInput Sample.damagedStore Sample.emptyCtl
      "c1").store.verifierSaltInvariant = true ∧
    (renameCategory (some "B") Sample.damagedStore Sample.emptyCtl
      "c1").store.verifierSaltInvariant = true ∧
    (deleteCategory Sample.prims { password := some "old", confirmed := true }
      Sample.damagedStore Sample.emptyCtl "c1").store.verifierSaltInvariant = true :=
  ⟨by decide, verifierSalt_invariant_preserved Sample.prims Sample.damagedStore Sample.emptyCtl
    (by decide) "c9" "B" "b.example" "c9" "c1" (some "b.example") (some "B") 2 2
    Sample.changeInput { password := some "old", confirmed := true }⟩

/-! ## Lists of stored records -/

theorem findIndex_of_mem (k : String) (l : List Bookmark) (h : k ∈ l.map (fun b => b.id)) :
    ∃ i, findIndex (fun b => b.id == k) l = some i := by
  induction l with
  | nil => simp at h
  | cons a as ih =>
    unfold findIndex
    by_cases ha : a.id = k
    · exact ⟨0, by simp [ha]⟩
    · have : k ∈ as.map (fun b => b.id) := by
        simp only [List.map_cons, List.mem_cons] at h
        rcases h with h | h
        · exact absurd h.symm ha
        · exact h
      obtain ⟨i, hi⟩ := ih this
      exact ⟨i + 1, by simp [ha, hi]⟩

theorem setAt_findIndex (f : Bookmark → Bookmark) (k : String) (l : List Bookmark) (i : Nat)
    (hnd : (l.map (fun b => b.id)).Nodup)
    (hi : findIndex (fun b => b.id == k) l = some i) :
    setAt f l i = l.map (fun x => if x.id = k then f x else x) := by
  induction l generalizing i with
  | nil => simp [findIndex] at hi
  | cons a as ih =>
    simp only [List.map_cons, List.nodup_cons] at hnd
    unfold findIndex at hi
    by_cases ha : a.id = k
    · simp only [ha, beq_self_eq_true, if_true, Option.some.injEq] at hi
      subst hi
      have htail : as.map (fun x => if x.id = k then f x else x) = as := by
        conv_rhs => rw [← List.map_id as]
        apply List.map_congr_left
        intro x hx
        have : x.id ≠ k := by
          intro hxk
          apply hnd.1
          rw [ha, ← hxk]
          exact List.mem_map_of_mem _ hx
        simp [this]
      simp [setAt, ha, htail]
    · have hak : (a.id == k) = false := by simpa using ha
      simp only [hak, Bool.false_eq_true, if_false, Option.map_eq_some'] at hi
      obtain ⟨j, hj, rfl⟩ := hi
      simp [setAt, ha, ih j hnd.2 hj]

theorem forall₂_mem_left {α β : Type} {R : α → β → Prop} {l : List α} {l' : List β}
    (h : List.Forall₂ R l l') : List.Forall₂ (fun x x' => x ∈ l ∧ R x x') l l' := by
  induction h with
  | nil => exact List.Forall₂.nil
  | cons hab _ ih =>
    exact List.Forall₂.cons ⟨List.mem_cons_self _ _, hab⟩
      (ih.imp (fun _ _ h => ⟨List.mem_cons_of_mem _ h.1, h.2⟩))

theorem eq_of_id_eq (l : List Bookmark) (hnd : (l.map (fun b => b.id)).Nodup) (x y : Bookmark)
    (hx : x ∈ l) (hy : y ∈ l) (h : x.id = y.id) : x = y :=
  List.inj_on_of_nodup_map hnd hx hy h

/-! ## The set branch -/

theorem encryptForSet_spec (P : Prims) (pw salt : String) (ivRnd : Nat → Nat → Byte) :
    ∀ (todo : List Bookmark) (k : Nat) (cur res : List Bookmark),
      (cur.map (fun b => b.id)).Nodup → (todo.map (fun b => b.id)).Nodup →
      (∀ b ∈ todo, b.id ∈ cur.map (fun b => b.id)) →
      (encryptForSet P pw salt ivRnd todo k cur).2 = some res →
      List.Forall₂ (fun x x' =>
        (∃ b ∈ todo, b.id = x.id ∧ ∃ ed rnd,
          encryptBookmark P b.url b.title pw (some salt) rnd = some ed ∧
          x' = encryptedVariant b ed) ∨
        (x.id ∉ todo.map (fun b => b.id) ∧ x' = x)) cur res := by
  intro todo
  induction todo with
  | nil =>
    intro k cur res _ _ _ h
    simp only [encryptForSet, Option.some.injEq] at h
    subst h
    exact List.forall₂_same.2 (fun x _ => Or.inr ⟨by simp, rfl⟩)
  | cons b rest ih =>
    intro k cur res hcur htodo hsub h
    obtain ⟨i, hi⟩ := findIndex_of_mem b.id cur (hsub b (List.mem_cons_self _ _))
    simp only [List.map_cons, List.nodup_cons] at htodo
    unfold encryptForSet at h
    simp only [hi] at h
    cases henc : encryptBookmark P b.url b.title pw (some salt) (ivRnd k) with
    | none => simp [henc] at h
    | some ed =>
      simp only [henc] at h
      rw [setAt_findIndex _ _ _ _ hcur hi] at h
      have hids : (cur.map (fun x => if x.id = b.id then encryptedVariant b ed else x)).map
          (fun b => b.id) = cur.map (fun b => b.id) := by
        rw [List.map_map]
        apply List.map_congr_left
        intro x _
        by_cases hx : x.id = b.id <;> simp [hx, encryptedVariant]
      have := ih (k + 1) _ res (by rw [hids]; exact hcur) htodo.2
        (by rw [hids]; exact fun c hc => hsub c (List.mem_cons_of_mem _ hc)) h
      rw [List.forall₂_map_left_iff] at this
      refine this.imp ?_
      intro x x' hR
      by_cases hx : x.id = b.id
      · simp only [hx, if_true] at hR
        rcases hR with ⟨c, hc, hcid, -⟩ | ⟨-, rfl⟩
        · exfalso
          apply htodo.1
          have : c.id = b.id := by simpa [encryptedVariant] using hcid
          rw [← this]
          exact List.mem_map_of_mem _ hc
        · exact Or.inl ⟨b, List.mem_cons_self _ _, hx.symm, ed, ivRnd k, henc, rfl⟩
      · simp only [hx, if_false] at hR
        rcases hR with ⟨c, hc, hcid, hrest⟩ | ⟨hnot, rfl⟩
        · exact Or.inl ⟨c, List.mem_cons_of_mem _ hc, hcid, hrest⟩
        · refine Or.inr ⟨?_, rfl⟩
          simp only [List.map_cons, List.mem_cons, not_or]
          exact ⟨hx, hnot⟩

theorem forall₂_exists_left {α β : Type} {R : α → β → Prop} {l : List α} {l' : List β}
    (h : List.Forall₂ R l l') : ∀ x' ∈ l', ∃ x ∈ l, R x x' := by
  induction h with
  | nil => intro x' hx'; simp at hx'
  | cons hab _ ih =>
    intro x' hx'
    rcases List.mem_cons.1 hx' with rfl | hx'
    · exact ⟨_, List.mem_cons_self _ _, hab⟩
    · obtain ⟨x, hx, hR⟩ := ih x' hx'
      exact ⟨x, List.mem_cons_of_mem _ hx, hR⟩

theorem filter_ids_nodup (p : Bookmark → Bool) (l : List Bookmark)
    (hnd : (l.map (fun b => b.id)).Nodup) : ((l.filter p).map (fun b => b.id)).Nodup :=
  hnd.sublist ((List.filter_sublist l).map _)

theorem encryptForSet_rel (P : Prims) (pw salt : String) (ivRnd : Nat → Nat → Byte)
    (cid : String) (bs res : List Bookmark) (hnd : (bs.map (fun b => b.id)).Nodup)
    (h : (encryptForSet P pw salt ivRnd
      (bs.filter (fun b => b.categoryId == cid && !b.encrypted)) 0 bs).2 = some res) :
    List.Forall₂ (SetRel P cid pw salt) bs res := by
  have hspec := encryptForSet_spec P pw salt ivRnd _ 0 bs res hnd
    (filter_ids_nodup _ bs hnd)
    (fun b hb => List.mem_map_of_mem _ (List.mem_of_mem_filter hb)) h
  refine (forall₂_mem_left hspec).imp ?_
  rintro x x' ⟨hx, hR⟩
  unfold SetRel
  rcases hR with ⟨b, hb, hbid, ed, rnd, henc, rfl⟩ | ⟨hnot, hxx⟩
  · have hbx : b = x := eq_of_id_eq bs hnd b x (List.mem_of_mem_filter hb) hx hbid
    subst hbx
    have hp := (List.mem_filter.1 hb).2
    simp only [Bool.and_eq_true, beq_iff_eq, Bool.not_eq_true'] at hp
    rw [if_pos hp]
    exact ⟨ed, rnd, henc, rfl⟩
  · have : ¬ (x.categoryId = cid ∧ x.encrypted = false) := by
      intro hp
      apply hnot
      apply List.mem_map_of_mem
      simp [List.mem_filter, hx, hp.1, hp.2]
    rw [if_neg this]
    exact hxx

theorem encryptForSet_succeeds (P : Prims) (hP : P.CipherLaws) (pw salt : String)
    (saltBytes : List Byte) (hs : hexToBytes salt = some saltBytes) (ivRnd : Nat → Nat → Byte) :
    ∀ (todo : List Bookmark) (k : Nat) (cur : List Bookmark),
      ∃ res, (encryptForSet P pw salt ivRnd todo k cur).2 = some res := by
  intro todo
  induction todo with
  | nil => intro k cur; exact ⟨cur, rfl⟩
  | cons b rest ih =>
    intro k cur
    unfold encryptForSet
    cases hi : findIndex (fun x => x.id == b.id) cur with
    | none => exact ih k cur
    | some i =>
      obtain ⟨ed, henc, -⟩ := encrypt_then_decrypt P hP b.url b.title pw salt (ivRnd k) saltBytes hs
      simp only [henc]
      exact ih (k + 1) _

theorem hexToBytes_generateSalt (rnd : Nat → Byte) :
    hexToBytes (generateSalt rnd) = some (getRandomValues 16 rnd) :=
  hexToBytes_toHex _ (getRandomValues_ne_nil 16 rnd (by decide))

theorem strTruthy_toHex (bs : List Byte) (h : bs ≠ []) : strTruthy (toHex bs) = true := by
  cases bs with
  | nil => exact absurd rfl h
  | cons b bs =>
    obtain ⟨c, d, hcd, -⟩ := byteToHex_shape b
    simp [strTruthy, toHex, hcd]

theorem strTruthy_hashPassword (P : Prims) (hD : P.DigestLaw) (p : String) :
    strTruthy (hashPassword P p) = true := by
  apply strTruthy_toHex
  intro h
  have := hD (P.utf8Encode p)
  rw [h] at this
  simp at this

theorem strTruthy_generateSalt (rnd : Nat → Byte) : strTruthy (generateSalt rnd) = true :=
  strTruthy_toHex _ (getRandomValues_ne_nil 16 rnd (by decide))

theorem strTruthy_of_trimNonEmpty (s : String) (h : trimNonEmpty s = true) :
    strTruthy s = true := by
  unfold trimNonEmpty at h
  unfold strTruthy
  cases hd : s.data with
  | nil => simp [hd] at h
  | cons c cs => rfl

theorem find?_updateCategory (f : Category → Category) (cid : String) (l : List Category)
    (c : Category) (hf : ∀ c, (f c).id = c.id)
    (h : l.find? (fun c => c.id == cid) = some c) :
    (updateCategory f cid l).find? (fun c => c.id == cid) = some (f c) := by
  induction l with
  | nil => simp at h
  | cons a as ih =>
    unfold updateCategory
    by_cases ha : a.id = cid
    · simp only [List.find?_cons, ha, beq_self_eq_true, Option.some.injEq] at h
      subst h
      simp [ha, hf]
    · have hak : (a.id == cid) = false := by simpa using ha
      simp only [List.find?_cons, hak] at h
      simp [hak, List.find?_cons, ih h]

theorem find?_map_replace {β : Type} (m : List (String × β)) (k : String) (v : β) :
    (m.map (fun e => if e.1 == k then (k, v) else e)).find? (fun e => e.1 == k) =
      (m.find? (fun e => e.1 == k)).map (fun _ => (k, v)) := by
  induction m with
  | nil => rfl
  | cons e es ih =>
    by_cases he : e.1 = k
    · simp [List.find?_cons, he]
    · have hek : (e.1 == k) = false := by simpa using he
      rw [List.map_cons, List.find?_cons, List.find?_cons]
      simp only [hek, Bool.false_eq_true, if_false]
      exact ih

theorem mapGet_mapSet {β : Type} (m : List (String × β)) (k : String) (v : β) :
    mapGet (mapSet m k v) k = some v := by
  unfold mapSet mapGet
  by_cases hh : mapHas m k = true
  · simp only [hh, if_true]
    rw [find?_map_replace]
    have : (m.find? (fun e => e.1 == k)).isSome = true := by
      rw [List.find?_isSome]
      simpa [mapHas] using hh
    obtain ⟨e, he⟩ := Option.isSome_iff_exists.1 this
    simp [he]
  · have hnone : m.find? (fun e => e.1 == k) = none := by
      rw [List.find?_eq_none]
      intro e he
      simp only [mapHas, List.any_eq_true, not_exists, not_and, Bool.not_eq_true] at hh
      simp [hh e he]
    simp only [hh, Bool.false_eq_true, if_false]
    rw [List.find?_append]
    simp [hnone]

theorem mem_setAdd (s : List String) (x : String) : x ∈ setAdd s x := by
  unfold setAdd
  split
  · rename_i h; simpa using h
  · simp

theorem decryptForUnlock_after_set (P : Prims) (hP : P.CipherLaws) (pw salt : String)
    (saltBytes : List Byte) (hs : hexToBytes salt = some saltBytes) (cid : String)
    (bs res : List Bookmark) (hrel : List.Forall₂ (SetRel P cid pw salt) bs res)
    (hplain : ∀ x ∈ bs, x.categoryId = cid → x.encrypted = false) :
    (decryptForUnlock P pw (some salt)
      (res.filter (fun b => b.categoryId == cid && b.encrypted))).2 =
      some ((bs.filter (fun b => b.categoryId == cid)).map
        (fun b => cachedOf b { url := b.url, title := b.title })) := by
  induction hrel with
  | nil => rfl
  | @cons x x' l l' hxx' _ ih =>
    have ih' := ih (fun y hy => hplain y (List.mem_cons_of_mem _ hy))
    unfold SetRel at hxx'
    by_cases hc : x.categoryId = cid
    · have hx := hplain x (List.mem_cons_self _ _) hc
      rw [if_pos ⟨hc, hx⟩] at hxx'
      obtain ⟨ed, rnd, henc, rfl⟩ := hxx'
      obtain ⟨ed', henc', hdec⟩ := encrypt_then_decrypt P hP x.url x.title pw salt rnd saltBytes hs
      rw [henc] at henc'
      cases henc'
      simp [List.filter_cons, encryptedVariant, hc, decryptForUnlock, hdec, ih', cachedOf]
    · have hne : ¬ (x.categoryId = cid ∧ x.encrypted = false) := fun h => hc h.1
      rw [if_neg hne] at hxx'
      subst hxx'
      simp [List.filter_cons, hc, ih']

/-! ## Setting a password, then unlocking -/

theorem manage_set_outcome (P : Prims) (inp : ManageInput) (st : Store) (ctl : Controller)
    (cid pw : String) (category : Category) (res : List Bookmark)
    (hfind : (st.categories.getD []).find? (fun c => c.id == cid) = some category)
    (hunprot : truthy category.password = false)
    (hpw : inp.newPassword = some pw) (hnonblank : trimNonEmpty pw = true)
    (hres : (encryptForSet P pw (generateSalt inp.saltRnd) inp.ivRnd
      ((st.bookmarks.getD []).filter (fun b => b.categoryId == cid && !b.encrypted)) 0
      (st.bookmarks.getD [])).2 = some res) :
    (manageCategoryPassword P inp st ctl cid).store =
      { st with
        categories := some (updateCategory
          (fun c => { c with password := some (hashPassword P pw),
                             salt := some (generateSalt inp.saltRnd) }) cid
          (st.categories.getD [])),
        bookmarks := some res } ∧
    (manageCategoryPassword P inp st ctl cid).ctl = ctl := by
  unfold manageCategoryPassword
  simp only [hfind, hunprot, hpw, hnonblank, strTruthy_of_trimNonEmpty pw hnonblank]
  generalize encryptForSet P pw (generateSalt inp.saltRnd) inp.ivRnd
      ((st.bookmarks.getD []).filter (fun b => b.categoryId == cid && !b.encrypted)) 0
      (st.bookmarks.getD []) = r at hres
  obtain ⟨ev, o⟩ := r
  simp only at hres
  subst hres
  simp

theorem toggle_unlock_outcome (P : Prims) (st : Store) (ctl : Controller) (cid pw : String)
    (categories : List Category) (bookmarks : List Bookmark) (category : Category)
    (recs : List CachedBookmark)
    (hcollapsed : ctl.expandedCategories.contains cid = false)
    (hcats : st.categories = some categories) (hbms : st.bookmarks = some bookmarks)
    (hfind : categories.find? (fun c => c.id == cid) = some category)
    (hprot : truthy category.password = true)
    (hpw : strTruthy pw = true)
    (hright : some (hashPassword P pw) = category.password)
    (hrecs : (decryptForUnlock P pw category.salt
      (bookmarks.filter (fun b => b.categoryId == cid && b.encrypted))).2 = some recs) :
    mapGet (toggleCategory P (some pw) st ctl cid).ctl.decryptedCache cid = some recs ∧
    (toggleCategory P (some pw) st ctl cid).ctl.expandedCategories.contains cid = true := by
  have heq : (some (hashPassword P pw) != category.password) = false := by simp [hright]
  unfold toggleCategory
  simp only [hcollapsed, hcats, hbms, hfind, hprot, hpw, heq]
  generalize decryptForUnlock P pw category.salt
      (bookmarks.filter (fun b => b.categoryId == cid && b.encrypted)) = r at hrecs
  obtain ⟨ev, o⟩ := r
  simp only at hrecs
  subst hrecs
  simp [mapGet_mapSet, mem_setAdd]

/-- C7 as amended (set a password, then unlock). Let the stored bookmark ids be pairwise
distinct over the whole store, let the category be unprotected with all of its bookmarks in
plaintext, collapsed, and let `password` be non-blank. After `manageCategoryPassword` sets
`password`, the category has the verifier of `password` and a fresh salt, and every stored
bookmark of the category is in the encrypted variant (`encrypted = true`, `encryptedData`
present, no `url`, no `title`). A following `toggleCategory` with `password` expands the
category and caches, in stored order, one record per bookmark of the category with the id,
url and title of the original plaintext bookmark. -/
theorem setPassword_then_unlock (P : Prims) (hP : P.CipherLaws) (hD : P.DigestLaw)
    (inp : ManageInput) (st : Store) (ctl : Controller) (categoryId password : String)
    (category : Category)
    (hfind : (st.categories.getD []).find? (fun c => c.id == categoryId) = some category)
    (hunprot : truthy category.password = false)
    (hplain : ∀ b ∈ st.bookmarks.getD [], b.categoryId = categoryId → b.encrypted = false)
    (hids : ((st.bookmarks.getD []).map (fun b => b.id)).Nodup)
    (hpw : inp.newPassword = some password) (hnonblank : trimNonEmpty password = true)
    (hcollapsed : ctl.expandedCategories.contains categoryId = false) :
    (∃ category',
      ((manageCategoryPassword P inp st ctl categoryId).store.categories.getD []).find?
        (fun c => c.id == categoryId) = some category' ∧
      category'.password = some (hashPassword P password) ∧
      category'.salt = some (generateSalt inp.saltRnd)) ∧
    (∀ b ∈ (manageCategoryPassword P inp st ctl categoryId).store.bookmarks.getD [],
      b.categoryId = categoryId →
        b.encrypted = true ∧ b.encryptedData.isSome = true ∧ b.url = none ∧ b.title = none) ∧
    mapGet (toggleCategory P (some password)
        (manageCategoryPassword P inp st ctl categoryId).store
        (manageCategoryPassword P inp st ctl categoryId).ctl categoryId).ctl.decryptedCache
        categoryId =
      some (((st.bookmarks.getD []).filter (fun b => b.categoryId == categoryId)).map
        (fun b => cachedOf b { url := b.url, title := b.title })) ∧
    (toggleCategory P (some password)
        (manageCategoryPassword P inp st ctl categoryId).store
        (manageCategoryPassword P inp st ctl categoryId).ctl
        categoryId).ctl.expandedCategories.contains categoryId = true := by
  have hsalt := hexToBytes_generateSalt inp.saltRnd
  obtain ⟨res, hres⟩ := encryptForSet_succeeds P hP password (generateSalt inp.saltRnd) _ hsalt
    inp.ivRnd ((st.bookmarks.getD []).filter (fun b => b.categoryId == categoryId && !b.encrypted))
    0 (st.bookmarks.getD [])
  obtain ⟨hstore, hctl⟩ := manage_set_outcome P inp st ctl categoryId password category res
    hfind hunprot hpw hnonblank hres
  have hrel := encryptForSet_rel P password (generateSalt inp.saltRnd) inp.ivRnd categoryId
    (st.bookmarks.getD []) res hids hres
  have hfind' := find?_updateCategory
    (fun c => { c with password := some (hashPassword P password),
                       salt := some (generateSalt inp.saltRnd) }) categoryId
    (st.categories.getD []) category (fun _ => rfl) hfind
  rw [hstore, hctl]
  refine ⟨⟨_, hfind', rfl, rfl⟩, ?_, ?_⟩
  · intro b hb hcat
    obtain ⟨x, hx, hR⟩ := forall₂_exists_left hrel b hb
    unfold SetRel at hR
    by_cases hc : x.categoryId = categoryId
    · rw [if_pos ⟨hc, hplain x hx hc⟩] at hR
      obtain ⟨ed, rnd, -, rfl⟩ := hR
      simp [encryptedVariant]
    · rw [if_neg (fun h => hc h.1)] at hR
      subst hR
      exact absurd hcat hc
  · exact toggle_unlock_outcome P _ ctl categoryId password _ res _ _ hcollapsed rfl rfl hfind'
      (by simp [truthy, strTruthy_hashPassword P hD])
      (strTruthy_of_trimNonEmpty password hnonblank) rfl
      (decryptForUnlock_after_set P hP password _ _ hsalt categoryId _ res hrel hplain)


set_option maxRecDepth 1000000 in
theorem setPassword_then_unlock_witness :
    mapGet (toggleCategory Sample.prims (some "pw")
        (manageCategoryPassword Sample.prims Sample.setInput Sample.openStore Sample.emptyCtl
          "c1").store
        (manageCategoryPassword Sample.prims Sample.setInput Sample.openStore Sample.emptyCtl
          "c1").ctl "c1").ctl.decryptedCache "c1" =
      some [{ id := "b1", url := some "https://a.example/1", title := some "One" },
            { id := "b2", url := some "https://a.example/2", title := some "Two" }] :=
  (setPassword_then_unlock Sample.prims Sample.cipherLaws Sample.digestLaw Sample.setInput
    Sample.openStore Sample.emptyCtl "c1" "pw" (Sample.openCategory "c1")
    (by decide) (by decide) (by decide) (by decide) rfl (by decide) (by decide)).2.2.1

set_option maxRecDepth 1000000 in
/-- C7 fails as stated. Category `c1` is unprotected, its only bookmark is in plaintext and
the ids within the category are pairwise distinct, but a bookmark of category `c2` earlier in
the store has the same id. After the set branch a bookmark of `c1` is still stored in
plaintext: `findIndex` found the bookmark of `c2` and replaced that one. -/
theorem setPassword_shared_id_counterexample :
    (Sample.sharedIdStore.categories.getD []).find? (fun c => c.id == "c1") =
      some (Sample.openCategory "c1") ∧
    truthy (Sample.openCategory "c1").password = false ∧
    ((Sample.sharedIdStore.bookmarks.getD []).filter (fun b => b.categoryId == "c1")).all
      (fun b => !b.encrypted) = true ∧
    (((Sample.sharedIdStore.bookmarks.getD []).filter (fun b => b.categoryId == "c1")).map
      (fun b => b.id)).Nodup ∧
    trimNonEmpty "pw" = true ∧
    ((manageCategoryPassword Sample.prims Sample.setInput Sample.sharedIdStore Sample.emptyCtl
      "c1").store.bookmarks.getD []).any (fun b => b.categoryId == "c1" && !b.encrypted)
      = true := by
  decide

/-! ## The change branch -/

theorem decryptForChange_eq (P : Prims) (pw : String) (salt : Option String)
    (l : List Bookmark) :
    (decryptForChange P pw salt l).2 =
      l.filterMap (fun b => (decryptBookmark P b.encryptedData pw salt).map (fun d => (b.id, d))) := by
  induction l with
  | nil => rfl
  | cons b bs ih =>
    unfold decryptForChange
    cases hd : decryptBookmark P b.encryptedData pw salt with
    | none => simp [List.filterMap_cons, hd, ih]
    | some d => simp [List.filterMap_cons, hd, ih]

theorem reencryptForChange_spec (P : Prims) (pw salt : String) (ivRnd : Nat → Nat → Byte) :
    ∀ (todo : List (String × Payload)) (k : Nat) (cur res : List Bookmark),
      (cur.map (fun b => b.id)).Nodup → (todo.map (fun e => e.1)).Nodup →
      (∀ e ∈ todo, e.1 ∈ cur.map (fun b => b.id)) →
      (reencryptForChange P pw salt ivRnd todo k cur).2 = some res →
      List.Forall₂ (fun x x' =>
        (∃ e ∈ todo, e.1 = x.id ∧ ∃ ed rnd,
          encryptBookmark P e.2.url e.2.title pw (some salt) rnd = some ed ∧
          x' = { x with encryptedData := some ed }) ∨
        (x.id ∉ todo.map (fun e => e.1) ∧ x' = x)) cur res := by
  intro todo
  induction todo with
  | nil =>
    intro k cur res _ _ _ h
    simp only [reencryptForChange, Option.some.injEq] at h
    subst h
    exact List.forall₂_same.2 (fun x _ => Or.inr ⟨by simp, rfl⟩)
  | cons e rest ih =>
    intro k cur res hcur htodo hsub h
    obtain ⟨id, data⟩ := e
    obtain ⟨i, hi⟩ := findIndex_of_mem id cur (hsub (id, data) (List.mem_cons_self _ _))
    simp only [List.map_cons, List.nodup_cons] at htodo
    unfold reencryptForChange at h
    simp only [hi] at h
    cases henc : encryptBookmark P data.url data.title pw (some salt) (ivRnd k) with
    | none => simp [henc] at h
    | some ed =>
      simp only [henc] at h
      rw [setAt_findIndex _ _ _ _ hcur hi] at h
      have hids : (cur.map (fun x => if x.id = id then
          { x with encryptedData := some ed } else x)).map
          (fun b => b.id) = cur.map (fun b => b.id) := by
        rw [List.map_map]
        apply List.map_congr_left
        intro x _
        by_cases hx : x.id = id <;> simp [hx]
      have := ih (k + 1) _ res (by rw [hids]; exact hcur) htodo.2
        (by rw [hids]; exact fun c hc => hsub c (List.mem_cons_of_mem _ hc)) h
      rw [List.forall₂_map_left_iff] at this
      refine this.imp ?_
      intro x x' hR
      by_cases hx : x.id = id
      · rw [if_pos hx] at hR
        rcases hR with ⟨c, hc, hcid, -⟩ | ⟨-, hxx⟩
        · exfalso
          apply htodo.1
          have hcid' : c.1 = id := hcid.trans hx
          rw [← hcid']
          exact List.mem_map_of_mem (fun e => e.1) hc
        · exact Or.inl ⟨(id, data), List.mem_cons_self _ _, hx.symm, ed, ivRnd k, henc, hxx⟩
      · rw [if_neg hx] at hR
        rcases hR with ⟨c, hc, hcid, hrest⟩ | ⟨hnot, hxx⟩
        · exact Or.inl ⟨c, List.mem_cons_of_mem _ hc, hcid, hrest⟩
        · refine Or.inr ⟨?_, hxx⟩
          simp only [List.map_cons, List.mem_cons, not_or]
          exact ⟨hx, hnot⟩

theorem decrypted_ids_sublist (P : Prims) (pw : String) (salt : Option String)
    (l : List Bookmark) :
    List.Sublist ((l.filterMap (fun b =>
      (decryptBookmark P b.encryptedData pw salt).map (fun d => (b.id, d)))).map (fun e => e.1))
      (l.map (fun b => b.id)) := by
  induction l with
  | nil => exact List.Sublist.slnil
  | cons b bs ih =>
    cases hd : decryptBookmark P b.encryptedData pw salt with
    | none =>
      simp only [List.filterMap_cons, hd, Option.map_none', List.map_cons]
      exact ih.cons _
    | some d =>
      simp only [List.filterMap_cons, hd, Option.map_some', List.map_cons]
      exact ih.cons₂ _

theorem reencryptForChange_rel (P : Prims) (old : String) (oldSalt : Option String)
    (pw salt : String) (ivRnd : Nat → Nat → Byte)
    (cid : String) (bs res : List Bookmark) (hnd : (bs.map (fun b => b.id)).Nodup)
    (h : (reencryptForChange P pw salt ivRnd
      (decryptForChange P old oldSalt
        (bs.filter (fun b => b.categoryId == cid && b.encrypted))).2 0 bs).2 = some res) :
    List.Forall₂ (ChangeRel P cid old oldSalt pw salt) bs res := by
  rw [decryptForChange_eq] at h
  have hsubl := decrypted_ids_sublist P old oldSalt
    (bs.filter (fun b => b.categoryId == cid && b.encrypted))
  have hspec := reencryptForChange_spec P pw salt ivRnd _ 0 bs res hnd
    ((filter_ids_nodup _ bs hnd).sublist hsubl)
    (by
      intro e he
      obtain ⟨b, hb, hbe⟩ := List.mem_filterMap.1 he
      obtain ⟨d, -, rfl⟩ := Option.map_eq_some'.1 hbe
      exact List.mem_map_of_mem _ (List.mem_of_mem_filter hb)) h
  refine (forall₂_mem_left hspec).imp ?_
  rintro x x' ⟨hx, hR⟩
  unfold ChangeRel
  rcases hR with ⟨e, he, heid, ed, rnd, henc, hxx⟩ | ⟨hnot, hxx⟩
  · obtain ⟨b, hb, hbe⟩ := List.mem_filterMap.1 he
    obtain ⟨d, hd, rfl⟩ := Option.map_eq_some'.1 hbe
    have hbx : b = x := eq_of_id_eq bs hnd b x (List.mem_of_mem_filter hb) hx heid
    subst hbx
    have hp := (List.mem_filter.1 hb).2
    simp only [Bool.and_eq_true, beq_iff_eq] at hp
    rw [if_pos hp, hd]
    exact ⟨ed, rnd, henc, hxx⟩
  · by_cases hp : x.categoryId = cid ∧ x.encrypted = true
    · rw [if_pos hp]
      cases hd : decryptBookmark P x.encryptedData old oldSalt with
      | none => exact hxx
      | some d =>
        exfalso
        apply hnot
        rw [List.mem_map]
        refine ⟨(x.id, d), ?_, rfl⟩
        rw [List.mem_filterMap]
        exact ⟨x, by simp [List.mem_filter, hx, hp.1, hp.2], by simp [hd]⟩
    · rw [if_neg hp]
      exact hxx

theorem reencryptForChange_succeeds (P : Prims) (hP : P.CipherLaws) (pw salt : String)
    (saltBytes : List Byte) (hs : hexToBytes salt = some saltBytes) (ivRnd : Nat → Nat → Byte) :
    ∀ (todo : List (String × Payload)) (k : Nat) (cur : List Bookmark),
      ∃ res, (reencryptForChange P pw salt ivRnd todo k cur).2 = some res := by
  intro todo
  induction todo with
  | nil => intro k cur; exact ⟨cur, rfl⟩
  | cons e rest ih =>
    intro k cur
    obtain ⟨id, data⟩ := e
    unfold reencryptForChange
    cases hi : findIndex (fun x => x.id == id) cur with
    | none => exact ih k cur
    | some i =>
      obtain ⟨ed, henc, -⟩ :=
        encrypt_then_decrypt P hP data.url data.title pw salt (ivRnd k) saltBytes hs
      simp only [henc]
      exact ih (k + 1) _

theorem decryptForUnlock_all (P : Prims) (pw : String) (salt : Option String)
    (l : List Bookmark)
    (h : ∀ b ∈ l, ∃ d, decryptBookmark P b.encryptedData pw salt = some d) :
    (decryptForUnlock P pw salt l).2 = some (l.map (fun b =>
      cachedOf b ((decryptBookmark P b.encryptedData pw salt).getD { url := none, title := none }))) := by
  induction l with
  | nil => rfl
  | cons b bs ih =>
    obtain ⟨d, hd⟩ := h b (List.mem_cons_self _ _)
    have ih' := ih (fun c hc => h c (List.mem_cons_of_mem _ hc))
    simp [decryptForUnlock, hd, ih', cachedOf]

theorem decryptForUnlock_after_change (P : Prims) (hP : P.CipherLaws) (old : String)
    (oldSalt : Option String) (pw salt : String)
    (saltBytes : List Byte) (hs : hexToBytes salt = some saltBytes) (cid : String)
    (bs res : List Bookmark)
    (hrel : List.Forall₂ (ChangeRel P cid old oldSalt pw salt) bs res)
    (hdec : ∀ x ∈ bs, x.categoryId = cid → x.encrypted = true →
      ∃ d, decryptBookmark P x.encryptedData old oldSalt = some d) :
    (decryptForUnlock P pw (some salt)
      (res.filter (fun b => b.categoryId == cid && b.encrypted))).2 =
      some ((bs.filter (fun b => b.categoryId == cid && b.encrypted)).map (fun b =>
        cachedOf b ((decryptBookmark P b.encryptedData old oldSalt).getD
          { url := none, title := none }))) := by
  induction hrel with
  | nil => rfl
  | @cons x x' l l' hxx' _ ih =>
    have ih' := ih (fun y hy => hdec y (List.mem_cons_of_mem _ hy))
    unfold ChangeRel at hxx'
    by_cases hp : x.categoryId = cid ∧ x.encrypted = true
    · obtain ⟨d, hd⟩ := hdec x (List.mem_cons_self _ _) hp.1 hp.2
      rw [if_pos hp, hd] at hxx'
      obtain ⟨ed, rnd, henc, rfl⟩ := hxx'
      obtain ⟨ed', henc', hdec'⟩ :=
        encrypt_then_decrypt P hP d.url d.title pw salt rnd saltBytes hs
      rw [henc] at henc'
      cases henc'
      simp [List.filter_cons, hp.1, hp.2, decryptForUnlock, hdec', ih', cachedOf, hd]
    · rw [if_neg hp] at hxx'
      subst hxx'
      have : (x'.categoryId == cid && x'.encrypted) = false := by
        simpa using hp
      simp [List.filter_cons, this, ih']

theorem mapGet_mapDelete {β : Type} (m : List (String × β)) (k : String) :
    mapGet (mapDelete m k) k = none := by
  unfold mapGet mapDelete
  have : (m.filter (fun e => e.1 != k)).find? (fun e => e.1 == k) = none := by
    rw [List.find?_eq_none]
    intro e he
    have := (List.mem_filter.1 he).2
    simpa using this
  simp [this]

theorem manage_change_outcome (P : Prims) (inp : ManageInput) (st : Store) (ctl : Controller)
    (cid old new : String) (category : Category) (res : List Bookmark)
    (hfind : (st.categories.getD []).find? (fun c => c.id == cid) = some category)
    (hprot : truthy category.password = true)
    (hold : inp.currentPassword = some old) (holdne : strTruthy old = true)
    (hright : some (hashPassword P old) = category.password)
    (hchange : inp.change = true)
    (hnew : inp.newPassword = some new) (hnonblank : trimNonEmpty new = true)
    (hres : (reencryptForChange P new (generateSalt inp.saltRnd) inp.ivRnd
      (decryptForChange P old category.salt
        ((st.bookmarks.getD []).filter (fun b => b.categoryId == cid && b.encrypted))).2 0
      (st.bookmarks.getD [])).2 = some res) :
    (manageCategoryPassword P inp st ctl cid).store =
      { st with
        categories := some (updateCategory
          (fun c => { c with password := some (hashPassword P new),
                             salt := some (generateSalt inp.saltRnd) }) cid
          (st.categories.getD [])),
        bookmarks := some res } ∧
    (manageCategoryPassword P inp st ctl cid).ctl =
      { ctl with
        derivedKeys := mapDelete ctl.derivedKeys cid,
        decryptedCache := mapDelete ctl.decryptedCache cid } := by
  have heq : (some (hashPassword P old) != category.password) = false := by simp [hright]
  unfold manageCategoryPassword
  simp only [hfind, hprot, hold, holdne, heq, hchange, hnew, hnonblank,
    strTruthy_of_trimNonEmpty new hnonblank]
  generalize reencryptForChange P new (generateSalt inp.saltRnd) inp.ivRnd
      (decryptForChange P old category.salt
        ((st.bookmarks.getD []).filter (fun b => b.categoryId == cid && b.encrypted))).2 0
      (st.bookmarks.getD []) = r at hres
  obtain ⟨ev, o⟩ := r
  simp only at hres
  subst hres
  simp

/-! ## Changing the password, then unlocking -/

theorem toggle_reject_outcome (P : Prims) (st : Store) (ctl : Controller) (cid pw : String)
    (categories : List Category) (category : Category)
    (hcollapsed : ctl.expandedCategories.contains cid = false)
    (hcats : st.categories = some categories)
    (hfind : categories.find? (fun c => c.id == cid) = some category)
    (hprot : truthy category.password = true)
    (hpw : strTruthy pw = true)
    (hwrong : some (hashPassword P pw) ≠ category.password) :
    toggleCategory P (some pw) st ctl cid = { store := st, ctl := ctl, trace := [Event.alert] } := by
  have hne : (some (hashPassword P pw) != category.password) = true := by
    simpa using hwrong
  have hexp : cid ∉ ctl.expandedCategories := by simpa using hcollapsed
  unfold toggleCategory
  simp [hexp, hcats, hfind, hprot, hne, hpw]

/-- C8 as amended (changing the password switches which password unlocks). Let the stored
bookmark ids be pairwise distinct, let the category be protected and collapsed, let the
entered current password be non-empty and correct and let every encrypted bookmark of the
category decrypt under it; let the new password be non-blank with a different digest. After
`manageCategoryPassword` changes the password, `toggleCategory` with the old password only
alerts and leaves the controller as it is (no cache entry, not expanded), and
`toggleCategory` with the new password expands the category and caches exactly the records
that `toggleCategory` with the old password cached before the change. -/
theorem changePassword_then_unlock (P : Prims) (hP : P.CipherLaws) (hD : P.DigestLaw)
    (inp : ManageInput) (st : Store) (ctl : Controller) (categoryId oldPassword newPassword : String)
    (categories : List Category) (bookmarks : List Bookmark) (category : Category)
    (hcats : st.categories = some categories) (hbms : st.bookmarks = some bookmarks)
    (hfind : categories.find? (fun c => c.id == categoryId) = some category)
    (hprot : truthy category.password = true)
    (hold : inp.currentPassword = some oldPassword) (holdne : strTruthy oldPassword = true)
    (hright : some (hashPassword P oldPassword) = category.password)
    (hchange : inp.change = true)
    (hnew : inp.newPassword = some newPassword) (hnonblank : trimNonEmpty newPassword = true)
    (hdiff : hashPassword P newPassword ≠ hashPassword P oldPassword)
    (hdecrypts : ∀ b ∈ bookmarks, b.categoryId = categoryId → b.encrypted = true →
      (decryptBookmark P b.encryptedData oldPassword category.salt).isSome = true)
    (hids : (bookmarks.map (fun b => b.id)).Nodup)
    (hcollapsed : ctl.expandedCategories.contains categoryId = false) :
    (toggleCategory P (some oldPassword)
        (manageCategoryPassword P inp st ctl categoryId).store
        (manageCategoryPassword P inp st ctl categoryId).ctl categoryId).trace = [Event.alert] ∧
    (toggleCategory P (some oldPassword)
        (manageCategoryPassword P inp st ctl categoryId).store
        (manageCategoryPassword P inp st ctl categoryId).ctl categoryId).ctl =
      (manageCategoryPassword P inp st ctl categoryId).ctl ∧
    mapGet (manageCategoryPassword P inp st ctl categoryId).ctl.decryptedCache categoryId = none ∧
    (manageCategoryPassword P inp st ctl categoryId).ctl.expandedCategories.contains categoryId
      = false ∧
    ∃ recs,
      mapGet (toggleCategory P (some oldPassword) st ctl categoryId).ctl.decryptedCache
        categoryId = some recs ∧
      mapGet (toggleCategory P (some newPassword)
        (manageCategoryPassword P inp st ctl categoryId).store
        (manageCategoryPassword P inp st ctl categoryId).ctl categoryId).ctl.decryptedCache
        categoryId = some recs ∧
      (toggleCategory P (some newPassword)
        (manageCategoryPassword P inp st ctl categoryId).store
        (manageCategoryPassword P inp st ctl categoryId).ctl
        categoryId).ctl.expandedCategories.contains categoryId = true := by
  have hdec : ∀ b ∈ bookmarks, b.categoryId = categoryId → b.encrypted = true →
      ∃ d, decryptBookmark P b.encryptedData oldPassword category.salt = some d :=
    fun b hb h1 h2 => Option.isSome_iff_exists.1 (hdecrypts b hb h1 h2)
  have hcats' : st.categories.getD [] = categories := by simp [hcats]
  have hbms' : st.bookmarks.getD [] = bookmarks := by simp [hbms]
  have hsalt := hexToBytes_generateSalt inp.saltRnd
  obtain ⟨res, hres⟩ := reencryptForChange_succeeds P hP newPassword (generateSalt inp.saltRnd) _
    hsalt inp.ivRnd
    (decryptForChange P oldPassword category.salt
      (bookmarks.filter (fun b => b.categoryId == categoryId && b.encrypted))).2 0 bookmarks
  obtain ⟨hstore, hctl⟩ := manage_change_outcome P inp st ctl categoryId oldPassword newPassword
    category res (by rw [hcats']; exact hfind) hprot hold holdne hright hchange hnew hnonblank
    (by rw [hbms']; exact hres)
  have hrel := reencryptForChange_rel P oldPassword category.salt newPassword
    (generateSalt inp.saltRnd) inp.ivRnd categoryId bookmarks res hids hres
  have hfind' := find?_updateCategory
    (fun c => { c with password := some (hashPassword P newPassword),
                       salt := some (generateSalt inp.saltRnd) }) categoryId
    categories category (fun _ => rfl) hfind
  rw [hstore, hctl, hcats']
  have hrej := toggle_reject_outcome P
    { st with
      categories := some (updateCategory
        (fun c => { c with password := some (hashPassword P newPassword),
                           salt := some (generateSalt inp.saltRnd) }) categoryId categories),
      bookmarks := some res }
    { ctl with
      derivedKeys := mapDelete ctl.derivedKeys categoryId,
      decryptedCache := mapDelete ctl.decryptedCache categoryId }
    categoryId oldPassword _ _ hcollapsed rfl hfind'
    (by simp [truthy, strTruthy_hashPassword P hD]) holdne
    (by
      intro h
      apply hdiff
      simpa using h.symm)
  have hbefore := (toggle_unlock_outcome P st ctl categoryId oldPassword categories bookmarks category _
      hcollapsed hcats hbms hfind hprot holdne hright
      (decryptForUnlock_all P oldPassword category.salt _
        (fun b hb => by
          have hb' := List.mem_filter.1 hb
          simp only [Bool.and_eq_true, beq_iff_eq] at hb'
          exact hdec b hb'.1 hb'.2.1 hb'.2.2))).1
  have hafter := toggle_unlock_outcome P
    { st with
      categories := some (updateCategory
        (fun c => { c with password := some (hashPassword P newPassword),
                           salt := some (generateSalt inp.saltRnd) }) categoryId categories),
      bookmarks := some res }
    { ctl with
      derivedKeys := mapDelete ctl.derivedKeys categoryId,
      decryptedCache := mapDelete ctl.decryptedCache categoryId }
    categoryId newPassword _ res _ _ hcollapsed rfl rfl hfind'
      (by simp [truthy, strTruthy_hashPassword P hD])
      (strTruthy_of_trimNonEmpty newPassword hnonblank) rfl
      (decryptForUnlock_after_change P hP oldPassword category.salt newPassword _ _ hsalt
        categoryId bookmarks res hrel hdec)
  exact ⟨by rw [hrej], by rw [hrej], mapGet_mapDelete _ _, hcollapsed, _, hbefore, hafter⟩

set_option maxRecDepth 1000000 in
theorem changePassword_then_unlock_witness :
    mapGet (toggleCategory Sample.prims (some "new")
        (manageCategoryPassword Sample.prims Sample.changeInput Sample.sealedStore
          Sample.emptyCtl "c1").store
        (manageCategoryPassword Sample.prims Sample.changeInput Sample.sealedStore
          Sample.emptyCtl "c1").ctl "c1").ctl.decryptedCache "c1" =
      some [{ id := "b1", url := some "https://a.example/1", title := some "One" },
            { id := "b2", url := some "https://a.example/2", title := some "Two" }] := by
  obtain ⟨-, -, -, -, recs, h1, h2, -⟩ :=
    changePassword_then_unlock Sample.prims Sample.cipherLaws Sample.digestLaw
      Sample.changeInput Sample.sealedStore Sample.emptyCtl "c1" "old" "new"
      [Sample.protectedCategory "c1" "old" "0a"]
      [Sample.sealedBookmark "b1" "c1" "https://a.example/1" "One" "old" "0a",
        Sample.sealedBookmark "b2" "c1" "https://a.example/2" "Two" "old" "0a"]
      (Sample.protectedCategory "c1" "old" "0a")
      rfl rfl (by decide) (by decide) rfl (by decide) (by decide) rfl rfl (by decide)
      (by decide) (by decide) (by decide) (by decide)
  rw [h2, ← h1]
  decide

set_option maxRecDepth 1000000 in
/-- C8 fails as stated. Category `c1` is protected by `old` and its only bookmark decrypts
under `old`, but an earlier bookmark of category `c2` has the same id. After the change to
`new` (a different digest), `toggleCategory` with `new` leaves the controller untouched: the
bookmark of `c1` still carries its old ciphertext, because `findIndex` found the bookmark of
`c2`. -/
theorem changePassword_shared_id_counterexample :
    (Sample.sharedIdSealedStore.categories.getD []).find? (fun c => c.id == "c1") =
      some (Sample.protectedCategory "c1" "old" "0a") ∧
    truthy (Sample.protectedCategory "c1" "old" "0a").password = true ∧
    some (hashPassword Sample.prims "old") = (Sample.protectedCategory "c1" "old" "0a").password ∧
    ((Sample.sharedIdSealedStore.bookmarks.getD []).filter (fun b => b.categoryId == "c1")).all
      (fun b => (decryptBookmark Sample.prims b.encryptedData "old" (some "0a")).isSome) = true ∧
    trimNonEmpty "new" = true ∧
    hashPassword Sample.prims "new" ≠ hashPassword Sample.prims "old" ∧
    Sample.emptyCtl.expandedCategories.contains "c1" = false ∧
    (toggleCategory Sample.prims (some "new")
      (manageCategoryPassword Sample.prims Sample.changeInput Sample.sharedIdSealedStore
        Sample.emptyCtl "c1").store
      (manageCategoryPassword Sample.prims Sample.changeInput Sample.sharedIdSealedStore
        Sample.emptyCtl "c1").ctl "c1").ctl = Sample.emptyCtl := by
  decide

/-! ## The remove branch -/

theorem decryptForRemove_spec (P : Prims) (pw : String) (salt : Option String) :
    ∀ (todo cur : List Bookmark),
      (cur.map (fun b => b.id)).Nodup → (todo.map (fun b => b.id)).Nodup →
      (∀ b ∈ todo, b.id ∈ cur.map (fun b => b.id)) →
      List.Forall₂ (fun x x' =>
        (∃ b ∈ todo, b.id = x.id ∧
          match decryptBookmark P b.encryptedData pw salt with
          | some d => x' = plainVariant b d
          | none => x' = x) ∨
        (x.id ∉ todo.map (fun b => b.id) ∧ x' = x)) cur
        (decryptForRemove P pw salt todo cur).2 := by
  intro todo
  induction todo with
  | nil =>
    intro cur _ _ _
    exact List.forall₂_same.2 (fun x _ => Or.inr ⟨by simp, rfl⟩)
  | cons b rest ih =>
    intro cur hcur htodo hsub
    obtain ⟨i, hi⟩ := findIndex_of_mem b.id cur (hsub b (List.mem_cons_self _ _))
    simp only [List.map_cons, List.nodup_cons] at htodo
    have hsub' : ∀ c ∈ rest, c.id ∈ cur.map (fun b => b.id) :=
      fun c hc => hsub c (List.mem_cons_of_mem _ hc)
    unfold decryptForRemove
    cases hd : decryptBookmark P b.encryptedData pw salt with
    | none =>
      simp only
      refine (ih cur hcur htodo.2 hsub').imp ?_
      intro x x' hR
      by_cases hx : x.id = b.id
      · rcases hR with ⟨c, hc, hcid, -⟩ | ⟨-, hxx⟩
        · exfalso
          apply htodo.1
          rw [← hx, ← hcid]
          exact List.mem_map_of_mem _ hc
        · exact Or.inl ⟨b, List.mem_cons_self _ _, hx.symm, by rw [hd]; exact hxx⟩
      · rcases hR with ⟨c, hc, hcid, hrest⟩ | ⟨hnot, hxx⟩
        · exact Or.inl ⟨c, List.mem_cons_of_mem _ hc, hcid, hrest⟩
        · refine Or.inr ⟨?_, hxx⟩
          simp only [List.map_cons, List.mem_cons, not_or]
          exact ⟨hx, hnot⟩
    | some d =>
      simp only [hi]
      rw [setAt_findIndex _ _ _ _ hcur hi]
      have hids : (cur.map (fun x => if x.id = b.id then plainVariant b d else x)).map
          (fun b => b.id) = cur.map (fun b => b.id) := by
        rw [List.map_map]
        apply List.map_congr_left
        intro x _
        by_cases hx : x.id = b.id <;> simp [hx, plainVariant]
      have := ih _ (by rw [hids]; exact hcur) htodo.2 (by rw [hids]; exact hsub')
      rw [List.forall₂_map_left_iff] at this
      refine this.imp ?_
      intro x x' hR
      by_cases hx : x.id = b.id
      · rw [if_pos hx] at hR
        rcases hR with ⟨c, hc, hcid, -⟩ | ⟨-, hxx⟩
        · exfalso
          apply htodo.1
          have : c.id = b.id := hcid
          rw [← this]
          exact List.mem_map_of_mem _ hc
        · exact Or.inl ⟨b, List.mem_cons_self _ _, hx.symm, by rw [hd]; exact hxx⟩
      · rw [if_neg hx] at hR
        rcases hR with ⟨c, hc, hcid, hrest⟩ | ⟨hnot, hxx⟩
        · exact Or.inl ⟨c, List.mem_cons_of_mem _ hc, hcid, hrest⟩
        · refine Or.inr ⟨?_, hxx⟩
          simp only [List.map_cons, List.mem_cons, not_or]
          exact ⟨hx, hnot⟩

theorem decryptForRemove_rel (P : Prims) (pw : String) (salt : Option String)
    (cid : String) (bs : List Bookmark) (hnd : (bs.map (fun b => b.id)).Nodup) :
    List.Forall₂ (RemoveRel P cid pw salt) bs
      (decryptForRemove P pw salt
        (bs.filter (fun b => b.categoryId == cid && b.encrypted)) bs).2 := by
  have hspec := decryptForRemove_spec P pw salt _ bs hnd
    (filter_ids_nodup (fun b => b.categoryId == cid && b.encrypted) bs hnd)
    (fun b hb => List.mem_map_of_mem _ (List.mem_of_mem_filter hb))
  refine (forall₂_mem_left hspec).imp ?_
  rintro x x' ⟨hx, hR⟩
  unfold RemoveRel
  rcases hR with ⟨b, hb, hbid, hm⟩ | ⟨hnot, hxx⟩
  · have hbx : b = x := eq_of_id_eq bs hnd b x (List.mem_of_mem_filter hb) hx hbid
    subst hbx
    have hp := (List.mem_filter.1 hb).2
    simp only [Bool.and_eq_true, beq_iff_eq] at hp
    rw [if_pos hp]
    exact hm
  · have : ¬ (x.categoryId = cid ∧ x.encrypted = true) := by
      intro hp
      apply hnot
      apply List.mem_map_of_mem
      simp [List.mem_filter, hx, hp.1, hp.2]
    rw [if_neg this]
    exact hxx

theorem manage_remove_outcome (P : Prims) (inp : ManageInput) (st : Store) (ctl : Controller)
    (cid pw : String) (category : Category)
    (hfind : (st.categories.getD []).find? (fun c => c.id == cid) = some category)
    (hprot : truthy category.password = true)
    (hpw : inp.currentPassword = some pw) (hne : strTruthy pw = true)
    (hright : some (hashPassword P pw) = category.password)
    (hremove : inp.change = false) :
    (manageCategoryPassword P inp st ctl cid).store =
      { st with
        categories := some (updateCategory
          (fun c => { c with password := none, salt := none }) cid (st.categories.getD [])),
        bookmarks := some (decryptForRemove P pw category.salt
          ((st.bookmarks.getD []).filter (fun b => b.categoryId == cid && b.encrypted))
          (st.bookmarks.getD [])).2 } ∧
    (manageCategoryPassword P inp st ctl cid).ctl =
      { ctl with
        derivedKeys := mapDelete ctl.derivedKeys cid,
        decryptedCache := mapDelete ctl.decryptedCache cid } := by
  have heq : (some (hashPassword P pw) != category.password) = false := by simp [hright]
  unfold manageCategoryPassword
  simp [hfind, hprot, hpw, hne, heq, hremove]

/-- C9 as amended (removing the password restores plaintext). Let the stored bookmark ids be
pairwise distinct over the whole store, let the category be protected, the entered password
non-empty and correct, and let every encrypted bookmark of the category decrypt under it.
After `manageCategoryPassword` removes the password, the category's verifier and salt are
both `null`; position by position, every encrypted bookmark of the category is replaced by
the plaintext object (`encrypted = false`, no `encryptedData`, the decrypted `url` and
`title`, and its own `id`, `categoryId`, `domain`, `createdAt`) and every other bookmark is
kept; no stored bookmark of the category has `encrypted = true`. -/
theorem removePassword_restores_plaintext (P : Prims) (inp : ManageInput) (st : Store)
    (ctl : Controller) (categoryId password : String) (category : Category)
    (hfind : (st.categories.getD []).find? (fun c => c.id == categoryId) = some category)
    (hprot : truthy category.password = true)
    (hpw : inp.currentPassword = some password) (hne : strTruthy password = true)
    (hright : some (hashPassword P password) = category.password)
    (hremove : inp.change = false)
    (hdecrypts : ∀ b ∈ st.bookmarks.getD [], b.categoryId = categoryId → b.encrypted = true →
      (decryptBookmark P b.encryptedData password category.salt).isSome = true)
    (hids : ((st.bookmarks.getD []).map (fun b => b.id)).Nodup) :
    (∃ category',
      ((manageCategoryPassword P inp st ctl categoryId).store.categories.getD []).find?
        (fun c => c.id == categoryId) = some category' ∧
      category'.password = none ∧ category'.salt = none) ∧
    List.Forall₂ (fun b b' =>
        if b.categoryId = categoryId ∧ b.encrypted = true then
          ∃ d, decryptBookmark P b.encryptedData password category.salt = some d ∧
            b' = plainVariant b d
        else b' = b)
      (st.bookmarks.getD [])
      ((manageCategoryPassword P inp st ctl categoryId).store.bookmarks.getD []) ∧
    ((manageCategoryPassword P inp st ctl categoryId).store.bookmarks.getD []).all
      (fun b => b.categoryId != categoryId || !b.encrypted) = true := by
  obtain ⟨hstore, -⟩ := manage_remove_outcome P inp st ctl categoryId password category
    hfind hprot hpw hne hright hremove
  have hrel := decryptForRemove_rel P password category.salt categoryId (st.bookmarks.getD [])
    hids
  have hfind' := find?_updateCategory
    (fun c => { c with password := none, salt := none }) categoryId
    (st.categories.getD []) category (fun _ => rfl) hfind
  have hrel' : List.Forall₂ (fun b b' =>
      if b.categoryId = categoryId ∧ b.encrypted = true then
        ∃ d, decryptBookmark P b.encryptedData password category.salt = some d ∧
          b' = plainVariant b d
      else b' = b) (st.bookmarks.getD [])
      (decryptForRemove P password category.salt
        ((st.bookmarks.getD []).filter (fun b => b.categoryId == categoryId && b.encrypted))
        (st.bookmarks.getD [])).2 := by
    refine (forall₂_mem_left hrel).imp ?_
    rintro x x' ⟨hx, hR⟩
    unfold RemoveRel at hR
    by_cases hp : x.categoryId = categoryId ∧ x.encrypted = true
    · rw [if_pos hp] at hR ⊢
      obtain ⟨d, hd⟩ := Option.isSome_iff_exists.1 (hdecrypts x hx hp.1 hp.2)
      rw [hd] at hR
      exact ⟨d, hd, hR⟩
    · rw [if_neg hp] at hR ⊢
      exact hR
  rw [hstore]
  refine ⟨⟨_, hfind', rfl, rfl⟩, hrel', ?_⟩
  rw [List.all_eq_true]
  intro b' hb'
  obtain ⟨x, -, hR⟩ := forall₂_exists_left hrel' b' hb'
  by_cases hp : x.categoryId = categoryId ∧ x.encrypted = true
  · rw [if_pos hp] at hR
    obtain ⟨d, -, rfl⟩ := hR
    simp [plainVariant]
  · rw [if_neg hp] at hR
    subst hR
    by_cases hc : b'.categoryId = categoryId
    · have : b'.encrypted = false := by
        cases he : b'.encrypted with
        | false => rfl
        | true => exact absurd ⟨hc, he⟩ hp
      simp [this]
    · simp [hc]

set_option maxRecDepth 1000000 in
theorem removePassword_restores_plaintext_witness :
    ((manageCategoryPassword Sample.prims Sample.removeInput Sample.sealedStore Sample.emptyCtl
      "c1").store.bookmarks.getD []).all (fun b => b.categoryId != "c1" || !b.encrypted)
      = true :=
  (removePassword_restores_plaintext Sample.prims Sample.removeInput Sample.sealedStore
    Sample.emptyCtl "c1" "old" (Sample.protectedCategory "c1" "old" "0a")
    (by decide) (by decide) rfl (by decide) (by decide) rfl (by decide) (by decide)).2.2

set_option maxRecDepth 1000000 in
/-- C9 fails as stated. Category `c1` is protected, the ids within the category are pairwise
distinct and its only bookmark decrypts, but an earlier bookmark of category `c2` has the
same id. After the remove branch a bookmark of `c1` is still stored encrypted: `findIndex`
found the bookmark of `c2` and replaced that one. -/
theorem removePassword_shared_id_counterexample :
    (Sample.sharedIdSealedStore.categories.getD []).find? (fun c => c.id == "c1") =
      some (Sample.protectedCategory "c1" "old" "0a") ∧
    truthy (Sample.protectedCategory "c1" "old" "0a").password = true ∧
    some (hashPassword Sample.prims "old") = (Sample.protectedCategory "c1" "old" "0a").password ∧
    (((Sample.sharedIdSealedStore.bookmarks.getD []).filter (fun b => b.categoryId == "c1")).map
      (fun b => b.id)).Nodup ∧
    ((Sample.sharedIdSealedStore.bookmarks.getD []).filter (fun b => b.categoryId == "c1")).all
      (fun b => (decryptBookmark Sample.prims b.encryptedData "old" (some "0a")).isSome) = true ∧
    ((manageCategoryPassword Sample.prims Sample.removeInput Sample.sharedIdSealedStore
      Sample.emptyCtl "c1").store.bookmarks.getD []).any
        (fun b => b.categoryId == "c1" && b.encrypted) = true := by
  decide

/-! ## Lifecycle exclusivity -/

theorem mem_updateCategory (f : Category → Category) (cid : String) (l : List Category)
    (c0 : Category) (hnd : (l.map (fun c => c.id)).Nodup)
    (hfind : l.find? (fun c => c.id == cid) = some c0) :
    ∀ c' ∈ updateCategory f cid l, c' = f c0 ∨ (c' ∈ l ∧ c'.id ≠ cid) := by
  induction l with
  | nil => simp at hfind
  | cons a as ih =>
    simp only [List.map_cons, List.nodup_cons] at hnd
    intro c' hc'
    unfold updateCategory at hc'
    by_cases ha : a.id = cid
    · simp only [List.find?_cons, ha, beq_self_eq_true, Option.some.injEq] at hfind
      subst hfind
      simp only [ha, beq_self_eq_true, if_true, List.mem_cons] at hc'
      rcases hc' with rfl | hc'
      · exact Or.inl rfl
      · refine Or.inr ⟨List.mem_cons_of_mem _ hc', ?_⟩
        intro hcid
        apply hnd.1
        rw [ha, ← hcid]
        exact List.mem_map_of_mem _ hc'
    · have hak : (a.id == cid) = false := by simpa using ha
      simp only [List.find?_cons, hak] at hfind
      simp only [hak, Bool.false_eq_true, if_false, List.mem_cons] at hc'
      rcases hc' with rfl | hc'
      · exact Or.inr ⟨List.mem_cons_self _ _, ha⟩
      · rcases ih hnd.2 hfind c' hc' with h | ⟨h1, h2⟩
        · exact Or.inl h
        · exact Or.inr ⟨List.mem_cons_of_mem _ h1, h2⟩

theorem find?_id_eq (cid : String) (l : List Category) (c0 : Category)
    (hfind : l.find? (fun c => c.id == cid) = some c0) : c0.id = cid ∧ c0 ∈ l := by
  have h1 := List.find?_some hfind
  have h2 := List.mem_of_find?_eq_some hfind
  exact ⟨by simpa using h1, h2⟩

theorem exclusive_iff (cats : List Category) (bs : List Bookmark) :
    exclusive cats bs = true ↔ ∀ c ∈ cats,
      (truthy c.password = true ∧ truthy c.salt = true ∧
        ∀ b ∈ bs, b.categoryId = c.id → b.encrypted = true) ∨
      (truthy c.password = false ∧ truthy c.salt = false ∧
        ∀ b ∈ bs, b.categoryId = c.id → b.encrypted = false) := by
  unfold exclusive Category.fullyProtected Category.fullyUnprotected
  simp only [List.all_eq_true, Bool.or_eq_true, Bool.and_eq_true, bne_iff_ne, ne_eq,
    Bool.not_eq_true', and_assoc]
  constructor
  · intro h c hc
    rcases h c hc with ⟨h1, h2, h3⟩ | ⟨h1, h2, h3⟩
    · exact Or.inl ⟨h1, h2, fun b hb hcat => by
        rcases h3 b hb with h | h
        · exact absurd hcat h
        · exact h⟩
    · exact Or.inr ⟨h1, h2, fun b hb hcat => by
        rcases h3 b hb with h | h
        · exact absurd hcat h
        · exact h⟩
  · intro h c hc
    rcases h c hc with ⟨h1, h2, h3⟩ | ⟨h1, h2, h3⟩
    · exact Or.inl ⟨h1, h2, fun b hb => by
        by_cases hcat : b.categoryId = c.id
        · exact Or.inr (h3 b hb hcat)
        · exact Or.inl hcat⟩
    · exact Or.inr ⟨h1, h2, fun b hb => by
        by_cases hcat : b.categoryId = c.id
        · exact Or.inr (h3 b hb hcat)
        · exact Or.inl hcat⟩

theorem exclusive_after (cats : List Category) (bs res : List Bookmark) (cid : String)
    (f : Category → Category) (c0 : Category) (target : Bool)
    (hnd : (cats.map (fun c => c.id)).Nodup)
    (hfind : cats.find? (fun c => c.id == cid) = some c0)
    (hfid : (f c0).id = cid)
    (hfp : truthy (f c0).password = target) (hfs : truthy (f c0).salt = target)
    (htarget : ∀ x' ∈ res, x'.categoryId = cid → x'.encrypted = target)
    (hother : ∀ x' ∈ res, x'.categoryId ≠ cid →
      ∃ x ∈ bs, x.categoryId = x'.categoryId ∧ x.encrypted = x'.encrypted)
    (hex : exclusive cats bs = true) :
    exclusive (updateCategory f cid cats) res = true := by
  rw [exclusive_iff] at hex ⊢
  intro c' hc'
  rcases mem_updateCategory f cid cats c0 hnd hfind c' hc' with rfl | ⟨hmem, hne⟩
  · cases target with
    | true => exact Or.inl ⟨hfp, hfs, fun b hb hcat => htarget b hb (hcat.trans hfid)⟩
    | false => exact Or.inr ⟨hfp, hfs, fun b hb hcat => htarget b hb (hcat.trans hfid)⟩
  · rcases hex c' hmem with ⟨h1, h2, h3⟩ | ⟨h1, h2, h3⟩
    · refine Or.inl ⟨h1, h2, fun b hb hcat => ?_⟩
      obtain ⟨x, hx, hxc, hxe⟩ := hother b hb (by rw [hcat]; exact hne)
      rw [← hxe]
      exact h3 x hx (hxc.trans hcat)
    · refine Or.inr ⟨h1, h2, fun b hb hcat => ?_⟩
      obtain ⟨x, hx, hxc, hxe⟩ := hother b hb (by rw [hcat]; exact hne)
      rw [← hxe]
      exact h3 x hx (hxc.trans hcat)

theorem manage_store_cases (P : Prims) (inp : ManageInput) (st : Store) (ctl : Controller)
    (cid : String) :
    (manageCategoryPassword P inp st ctl cid).store = st ∨
    (∃ category pw res,
      (st.categories.getD []).find? (fun c => c.id == cid) = some category ∧
      truthy category.password = false ∧
      (encryptForSet P pw (generateSalt inp.saltRnd) inp.ivRnd
        ((st.bookmarks.getD []).filter (fun b => b.categoryId == cid && !b.encrypted)) 0
        (st.bookmarks.getD [])).2 = some res ∧
      (manageCategoryPassword P inp st ctl cid).store =
        { st with
          categories := some (updateCategory
            (fun c => { c with password := some (hashPassword P pw),
                               salt := some (generateSalt inp.saltRnd) }) cid
            (st.categories.getD [])),
          bookmarks := some res }) ∨
    (∃ category old new res,
      (st.categories.getD []).find? (fun c => c.id == cid) = some category ∧
      truthy category.password = true ∧
      (reencryptForChange P new (generateSalt inp.saltRnd) inp.ivRnd
        (decryptForChange P old category.salt
          ((st.bookmarks.getD []).filter (fun b => b.categoryId == cid && b.encrypted))).2 0
        (st.bookmarks.getD [])).2 = some res ∧
      (manageCategoryPassword P inp st ctl cid).store =
        { st with
          categories := some (updateCategory
            (fun c => { c with password := some (hashPassword P new),
                               salt := some (generateSalt inp.saltRnd) }) cid
            (st.categories.getD [])),
          bookmarks := some res }) ∨
    (∃ category pw,
      (st.categories.getD []).find? (fun c => c.id == cid) = some category ∧
      truthy category.password = true ∧
      inp.currentPassword = some pw ∧ inp.change = false ∧
      (manageCategoryPassword P inp st ctl cid).store =
        { st with
          categories := some (updateCategory
            (fun c => { c with password := none, salt := none }) cid (st.categories.getD [])),
          bookmarks := some (decryptForRemove P pw category.salt
            ((st.bookmarks.getD []).filter (fun b => b.categoryId == cid && b.encrypted))
            (st.bookmarks.getD [])).2 }) := by
  cases hfind : (st.categories.getD []).find? (fun c => c.id == cid) with
  | none => left; unfold manageCategoryPassword; simp [hfind]
  | some category =>
    cases hprot : truthy category.password with
    | false =>
      cases hnew : inp.newPassword with
      | none => left; unfold manageCategoryPassword; simp [hfind, hprot, hnew]
      | some pw =>
        cases hnb : trimNonEmpty pw with
        | false => left; unfold manageCategoryPassword; simp [hfind, hprot, hnew, hnb]
        | true =>
          cases hres : (encryptForSet P pw (generateSalt inp.saltRnd) inp.ivRnd
            ((st.bookmarks.getD []).filter (fun b => b.categoryId == cid && !b.encrypted)) 0
            (st.bookmarks.getD [])).2 with
          | none =>
            left
            unfold manageCategoryPassword
            simp only [hfind, hprot, hnew, hnb, strTruthy_of_trimNonEmpty pw hnb]
            generalize encryptForSet P pw (generateSalt inp.saltRnd) inp.ivRnd
              ((st.bookmarks.getD []).filter (fun b => b.categoryId == cid && !b.encrypted)) 0
              (st.bookmarks.getD []) = r at hres
            obtain ⟨ev, o⟩ := r
            simp only at hres
            subst hres
            simp
          | some res =>
            right; left
            exact ⟨category, pw, res, rfl, hprot, hres,
              (manage_set_outcome P inp st ctl cid pw category res hfind hprot hnew hnb hres).1⟩
    | true =>
      cases hcur : inp.currentPassword with
      | none => left; unfold manageCategoryPassword; simp [hfind, hprot, hcur]
      | some old =>
        cases hne : strTruthy old with
        | false => left; unfold manageCategoryPassword; simp [hfind, hprot, hcur, hne]
        | true =>
          by_cases hright : some (hashPassword P old) = category.password
          · cases hch : inp.change with
            | false =>
              right; right; right
              exact ⟨category, old, rfl, hprot, rfl, rfl,
                (manage_remove_outcome P inp st ctl cid old category hfind hprot hcur hne
                  hright hch).1⟩
            | true =>
              have heq : (some (hashPassword P old) != category.password) = false := by
                simp [hright]
              cases hnew : inp.newPassword with
              | none =>
                left; unfold manageCategoryPassword
                simp [hfind, hprot, hcur, hne, heq, hch, hnew]
              | some new =>
                cases hnb : trimNonEmpty new with
                | false =>
                  left; unfold manageCategoryPassword
                  simp [hfind, hprot, hcur, hne, heq, hch, hnew, hnb]
                | true =>
                  cases hres : (reencryptForChange P new (generateSalt inp.saltRnd) inp.ivRnd
                    (decryptForChange P old category.salt
                      ((st.bookmarks.getD []).filter
                        (fun b => b.categoryId == cid && b.encrypted))).2 0
                    (st.bookmarks.getD [])).2 with
                  | none =>
                    left
                    unfold manageCategoryPassword
                    simp only [hfind, hprot, hcur, hne, heq, hch, hnew, hnb,
                      strTruthy_of_trimNonEmpty new hnb]
                    generalize reencryptForChange P new (generateSalt inp.saltRnd) inp.ivRnd
                      (decryptForChange P old category.salt
                        ((st.bookmarks.getD []).filter
                          (fun b => b.categoryId == cid && b.encrypted))).2 0
                      (st.bookmarks.getD []) = r at hres
                    obtain ⟨ev, o⟩ := r
                    simp only at hres
                    subst hres
                    simp
                  | some res =>
                    right; right; left
                    exact ⟨category, old, new, res, rfl, hprot, hres,
                      (manage_change_outcome P inp st ctl cid old new category res hfind hprot
                        hcur hne hright hch hnew hnb hres).1⟩
          · left
            have hne' : (some (hashPassword P old) != category.password) = true := by
              simpa using hright
            unfold manageCategoryPassword
            simp [hfind, hprot, hcur, hne, hne']

theorem manage_exclusive (P : Prims) (hD : P.DigestLaw) (inp : ManageInput) (st : Store)
    (ctl : Controller) (cid : String)
    (hex : st.lifecycleExclusive = true)
    (hbids : ((st.bookmarks.getD []).map (fun b => b.id)).Nodup)
    (hcids : ((st.categories.getD []).map (fun c => c.id)).Nodup)
    (hdec : inp.change = false → ∀ category pw,
      (st.categories.getD []).find? (fun c => c.id == cid) = some category →
      inp.currentPassword = some pw →
      ∀ b ∈ st.bookmarks.getD [], b.categoryId = cid → b.encrypted = true →
        (decryptBookmark P b.encryptedData pw category.salt).isSome = true) :
    (manageCategoryPassword P inp st ctl cid).store.lifecycleExclusive = true := by
  rcases manage_store_cases P inp st ctl cid with h | ⟨c0, pw, res, hfind, hprot, hres, h⟩ |
    ⟨c0, old, new, res, hfind, hprot, hres, h⟩ | ⟨c0, pw, hfind, hprot, hcur, hch, h⟩
  · rw [h]; exact hex
  · rw [h]
    have hrel := encryptForSet_rel P pw (generateSalt inp.saltRnd) inp.ivRnd cid
      (st.bookmarks.getD []) res hbids hres
    have hid := (find?_id_eq cid _ c0 hfind).1
    refine exclusive_after _ (st.bookmarks.getD []) res cid _ c0 true hcids hfind hid
      (by simp [truthy, strTruthy_hashPassword P hD])
      (by simp [truthy, strTruthy_generateSalt]) ?_ ?_ hex
    · intro x' hx' hcat
      obtain ⟨x, hx, hR⟩ := forall₂_exists_left hrel x' hx'
      unfold SetRel at hR
      by_cases hp : x.categoryId = cid ∧ x.encrypted = false
      · rw [if_pos hp] at hR
        obtain ⟨ed, rnd, -, rfl⟩ := hR
        rfl
      · rw [if_neg hp] at hR
        subst hR
        cases he : x'.encrypted with
        | true => rfl
        | false => exact absurd ⟨hcat, he⟩ hp
    · intro x' hx' hcat
      obtain ⟨x, hx, hR⟩ := forall₂_exists_left hrel x' hx'
      unfold SetRel at hR
      by_cases hp : x.categoryId = cid ∧ x.encrypted = false
      · rw [if_pos hp] at hR
        obtain ⟨ed, rnd, -, rfl⟩ := hR
        exact absurd hp.1 hcat
      · rw [if_neg hp] at hR
        subst hR
        exact ⟨x', hx, rfl, rfl⟩
  · rw [h]
    have hrel := reencryptForChange_rel P old c0.salt new (generateSalt inp.saltRnd) inp.ivRnd
      cid (st.bookmarks.getD []) res hbids hres
    obtain ⟨hid, hmem⟩ := find?_id_eq cid _ c0 hfind
    have hflags : ∀ x' ∈ res, ∃ x ∈ st.bookmarks.getD [],
        x.categoryId = x'.categoryId ∧ x.encrypted = x'.encrypted := by
      intro x' hx'
      obtain ⟨x, hx, hR⟩ := forall₂_exists_left hrel x' hx'
      refine ⟨x, hx, ?_⟩
      unfold ChangeRel at hR
      split at hR
      · split at hR
        · obtain ⟨ed, rnd, -, rfl⟩ := hR
          exact ⟨rfl, rfl⟩
        · subst hR; exact ⟨rfl, rfl⟩
      · subst hR; exact ⟨rfl, rfl⟩
    have hc0 : ∀ b ∈ st.bookmarks.getD [], b.categoryId = c0.id → b.encrypted = true := by
      have := (exclusive_iff _ _).1 hex c0 hmem
      rcases this with ⟨-, -, h3⟩ | ⟨h1, -, -⟩
      · exact h3
      · rw [hprot] at h1; cases h1
    refine exclusive_after _ (st.bookmarks.getD []) res cid _ c0 true hcids hfind hid
      (by simp [truthy, strTruthy_hashPassword P hD])
      (by simp [truthy, strTruthy_generateSalt]) ?_ ?_ hex
    · intro x' hx' hcat
      obtain ⟨x, hx, hxc, hxe⟩ := hflags x' hx'
      rw [← hxe]
      exact hc0 x hx (by rw [hxc, hcat, hid])
    · intro x' hx' _
      exact hflags x' hx'
  · rw [h]
    have hrel := decryptForRemove_rel P pw c0.salt cid (st.bookmarks.getD []) hbids
    have hid := (find?_id_eq cid _ c0 hfind).1
    refine exclusive_after _ (st.bookmarks.getD []) _ cid _ c0 false hcids hfind hid
      rfl rfl ?_ ?_ hex
    · intro x' hx' hcat
      obtain ⟨x, hx, hR⟩ := forall₂_exists_left hrel x' hx'
      unfold RemoveRel at hR
      by_cases hp : x.categoryId = cid ∧ x.encrypted = true
      · rw [if_pos hp] at hR
        obtain ⟨d, hd⟩ := Option.isSome_iff_exists.1
          (hdec hch c0 pw hfind hcur x hx hp.1 hp.2)
        rw [hd] at hR
        subst hR
        rfl
      · rw [if_neg hp] at hR
        subst hR
        cases he : x'.encrypted with
        | false => rfl
        | true => exact absurd ⟨hcat, he⟩ hp
    · intro x' hx' hcat
      obtain ⟨x, hx, hR⟩ := forall₂_exists_left hrel x' hx'
      unfold RemoveRel at hR
      by_cases hp : x.categoryId = cid ∧ x.encrypted = true
      · rw [if_pos hp] at hR
        cases hd : decryptBookmark P x.encryptedData pw c0.salt with
        | none =>
          rw [hd] at hR
          subst hR
          exact ⟨x', hx, rfl, rfl⟩
        | some d =>
          rw [hd] at hR
          subst hR
          exact absurd hp.1 hcat
      · rw [if_neg hp] at hR
        subst hR
        exact ⟨x', hx, rfl, rfl⟩

theorem exclusive_append_category (cats : List Category) (bs : List Bookmark)
    (id name : String) (od : Option String) (t : Nat)
    (hfresh : id ∉ bs.map (fun b => b.categoryId))
    (hex : exclusive cats bs = true) :
    exclusive (cats ++ [newCategory id name od t]) bs = true := by
  rw [exclusive_iff] at hex ⊢
  intro c hc
  rcases List.mem_append.1 hc with hc | hc
  · exact hex c hc
  · simp only [List.mem_singleton] at hc
    subst hc
    refine Or.inr ⟨rfl, rfl, fun b hb hcat => ?_⟩
    exfalso
    apply hfresh
    have : b.categoryId = id := hcat
    rw [← this]
    exact List.mem_map_of_mem _ hb

theorem exclusive_push (cats : List Category) (bs : List Bookmark) (b : Bookmark)
    (hnd : (cats.map (fun c => c.id)).Nodup)
    (hb : ∀ c, cats.find? (fun c => c.id == b.categoryId) = some c →
      b.encrypted = truthy c.password)
    (hex : exclusive cats bs = true) :
    exclusive cats (bs ++ [b]) = true := by
  rw [exclusive_iff] at hex ⊢
  intro c hc
  have hflag : b.categoryId = c.id → b.encrypted = truthy c.password := by
    intro hcat
    apply hb
    have hsome : (cats.find? (fun c => c.id == b.categoryId)).isSome = true := by
      rw [List.find?_isSome]
      exact ⟨c, hc, by simp [hcat]⟩
    obtain ⟨c', hc'⟩ := Option.isSome_iff_exists.1 hsome
    obtain ⟨hid, hmem⟩ := find?_id_eq _ _ c' hc'
    have : c' = c := List.inj_on_of_nodup_map hnd hmem hc (hid.trans hcat)
    rw [← this]
    exact hc'
  rcases hex c hc with ⟨h1, h2, h3⟩ | ⟨h1, h2, h3⟩
  · refine Or.inl ⟨h1, h2, fun x hx hcat => ?_⟩
    rcases List.mem_append.1 hx with hx | hx
    · exact h3 x hx hcat
    · simp only [List.mem_singleton] at hx
      subst hx
      rw [hflag hcat, h1]
  · refine Or.inr ⟨h1, h2, fun x hx hcat => ?_⟩
    rcases List.mem_append.1 hx with hx | hx
    · exact h3 x hx hcat
    · simp only [List.mem_singleton] at hx
      subst hx
      rw [hflag hcat, h1]

theorem getOrCreateCategory_cases (st : Store) (domain newId : String) (now : Nat) :
    (getOrCreateCategory st domain newId now).2.1 = st ∨
    ∃ name od,
      (getOrCreateCategory st domain newId now).2.1.categories =
        some (st.categories.getD [] ++ [newCategory newId name od now]) ∧
      (getOrCreateCategory st domain newId now).2.1.bookmarks = st.bookmarks := by
  unfold getOrCreateCategory
  simp only []
  repeat' split
  all_goals first
    | exact Or.inl rfl
    | exact Or.inr ⟨_, _, rfl, rfl⟩

theorem page_exclusive (P : Prims) (inp : PageInput) (st : Store) (ctl : Controller)
    (hex : st.lifecycleExclusive = true)
    (hcids : ((st.categories.getD []).map (fun c => c.id)).Nodup)
    (hfresh1 : inp.newCategoryId ∉ (st.categories.getD []).map (fun c => c.id))
    (hfresh2 : inp.newCategoryId ∉ (st.bookmarks.getD []).map (fun b => b.categoryId)) :
    (bookmarkCurrentPage P inp st ctl).store.lifecycleExclusive = true := by
  have hst1 : exclusive
      ((getOrCreateCategory st inp.domain inp.newCategoryId inp.categoryCreatedAt).2.1.categories.getD [])
      (st.bookmarks.getD []) = true ∧
      (((getOrCreateCategory st inp.domain inp.newCategoryId
        inp.categoryCreatedAt).2.1.categories.getD []).map (fun c => c.id)).Nodup ∧
      (getOrCreateCategory st inp.domain inp.newCategoryId inp.categoryCreatedAt).2.1.bookmarks
        = st.bookmarks := by
    rcases getOrCreateCategory_cases st inp.domain inp.newCategoryId inp.categoryCreatedAt with
      h | ⟨name, od, h1, h2⟩
    · rw [h]; exact ⟨hex, hcids, rfl⟩
    · rw [h1, h2]
      refine ⟨exclusive_append_category _ _ _ _ _ _ hfresh2 hex, ?_, rfl⟩
      simp only [Option.getD_some, List.map_append, List.map_cons, List.map_nil]
      rw [List.nodup_append]
      refine ⟨hcids, by simp, ?_⟩
      intro a ha hb
      simp only [List.mem_singleton] at hb
      subst hb
      exact hfresh1 ha
  obtain ⟨h1, h2, h3⟩ := hst1
  have hstop : (getOrCreateCategory st inp.domain inp.newCategoryId
      inp.categoryCreatedAt).2.1.lifecycleExclusive = true := by
    unfold Store.lifecycleExclusive
    rw [h3]
    exact h1
  unfold bookmarkCurrentPage
  simp only []
  repeat' split
  all_goals first
    | exact hex
    | exact hstop
    | (apply exclusive_push _ _ _ h2 _ h1
       intro c hc
       simp_all [encryptedVariant])


/-- C4 as amended (lifecycle exclusivity is preserved). Let every stored category be fully
protected or fully unprotected, and let the stored bookmark ids and the stored category ids
each be pairwise distinct. Then the same holds of the persisted state after any run of
`manageCategoryPassword` in the set or change branch (completed or not) and after any run of
the remove branch in which every encrypted bookmark of the category decrypts; and it holds
after any run of `bookmarkCurrentPage` in which the id generated for a new category is not
yet the id of a stored category nor the `categoryId` of a stored bookmark. -/
theorem lifecycle_exclusive_preserved (P : Prims) (hD : P.DigestLaw) (st : Store)
    (ctl : Controller)
    (hex : st.lifecycleExclusive = true)
    (hbids : ((st.bookmarks.getD []).map (fun b => b.id)).Nodup)
    (hcids : ((st.categories.getD []).map (fun c => c.id)).Nodup)
    (manageInp : ManageInput) (categoryId : String)
    (hdecrypts : manageInp.change = false → ∀ category pw,
      (st.categories.getD []).find? (fun c => c.id == categoryId) = some category →
      manageInp.currentPassword = some pw →
      ∀ b ∈ st.bookmarks.getD [], b.categoryId = categoryId → b.encrypted = true →
        (decryptBookmark P b.encryptedData pw category.salt).isSome = true)
    (pageInp : PageInput)
    (hfresh : pageInp.newCategoryId ∉ (st.categories.getD []).map (fun c => c.id) ∧
      pageInp.newCategoryId ∉ (st.bookmarks.getD []).map (fun b => b.categoryId)) :
    (manageCategoryPassword P manageInp st ctl categoryId).store.lifecycleExclusive = true ∧
    (bookmarkCurrentPage P pageInp st ctl).store.lifecycleExclusive = true :=
  ⟨manage_exclusive P hD manageInp st ctl categoryId hex hbids hcids hdecrypts,
    page_exclusive P pageInp st ctl hex hcids hfresh.1 hfresh.2⟩

set_option maxRecDepth 1000000 in
theorem lifecycle_exclusive_preserved_witness :
    Sample.sealedStore.lifecycleExclusive = true ∧
    (manageCategoryPassword Sample.prims Sample.removeInput Sample.sealedStore Sample.emptyCtl
      "c1").store.lifecycleExclusive = true ∧
    (bookmarkCurrentPage Sample.prims Sample.pageInput Sample.sealedStore
      Sample.emptyCtl).store.lifecycleExclusive = true :=
  ⟨by decide,
    lifecycle_exclusive_preserved Sample.prims Sample.digestLaw Sample.sealedStore
      Sample.emptyCtl (by decide) (by decide) (by decide) Sample.removeInput "c1"
      (by
        intro _ category pw hf hp
        have hf' : some (Sample.protectedCategory "c1" "old" "0a") = some category := hf
        have hp' : some "old" = some pw := hp
        cases hf'
        cases hp'
        decide)
      Sample.pageInput (by decide)⟩

set_option maxRecDepth 1000000 in
/-- C4 fails as stated. Both categories are unprotected and all bookmarks are in plaintext,
so the state is exclusive; the bookmark of `c1` shares its id with an earlier bookmark of
`c2`. After the set branch on `c1` the persisted state is not exclusive: `c1` has verifier
and salt, and one of its bookmarks is still stored in plaintext. -/
theorem lifecycle_shared_id_counterexample :
    Sample.sharedIdStore.lifecycleExclusive = true ∧
    (manageCategoryPassword Sample.prims Sample.setInput Sample.sharedIdStore Sample.emptyCtl
      "c1").store.lifecycleExclusive = false := by
  decide

/-! ## Wrong password and cancelled prompts in manageCategoryPassword -/

/-- C11 (a password mismatch aborts change and remove). For a protected category and an
entered current password whose `hashPassword` digest differs from the stored verifier,
`manageCategoryPassword` leaves the store (categories and bookmarks) and the controller
(`decryptedCache`, `derivedKeys`, `expandedCategories`) as they were, calls
`chrome.storage.local.set` never, and makes no `decryptBookmark`, `encryptBookmark` or
`deriveKey` call. -/
theorem manageCategoryPassword_wrong_password (P : Prims) (inp : ManageInput) (st : Store)
    (ctl : Controller) (categoryId inputPassword : String) (category : Category)
    (hfind : (st.categories.getD []).find? (fun c => c.id == categoryId) = some category)
    (hprot : truthy category.password = true)
    (hpw : inp.currentPassword = some inputPassword)
    (hwrong : some (hashPassword P inputPassword) ≠ category.password) :
    (manageCategoryPassword P inp st ctl categoryId).store = st ∧
    (manageCategoryPassword P inp st ctl categoryId).ctl = ctl ∧
    Event.storageSet ∉ (manageCategoryPassword P inp st ctl categoryId).trace ∧
    Event.decryptBookmark ∉ (manageCategoryPassword P inp st ctl categoryId).trace ∧
    Event.encryptBookmark ∉ (manageCategoryPassword P inp st ctl categoryId).trace ∧
    Event.deriveKey ∉ (manageCategoryPassword P inp st ctl categoryId).trace := by
  have hne : (some (hashPassword P inputPassword) != category.password) = true := by
    simpa using hwrong
  unfold manageCategoryPassword
  simp only [hfind, hprot, hpw, hne]
  by_cases ht : strTruthy inputPassword = true <;> simp [ht]

theorem manageCategoryPassword_wrong_password_witness :
    (manageCategoryPassword Sample.prims Sample.wrongInput Sample.sealedStore Sample.emptyCtl
      "c1").store = Sample.sealedStore ∧
    (manageCategoryPassword Sample.prims Sample.wrongInput Sample.sealedStore Sample.emptyCtl
      "c1").ctl = Sample.emptyCtl ∧
    Event.storageSet ∉ (manageCategoryPassword Sample.prims Sample.wrongInput
      Sample.sealedStore Sample.emptyCtl "c1").trace ∧
    Event.decryptBookmark ∉ (manageCategoryPassword Sample.prims Sample.wrongInput
      Sample.sealedStore Sample.emptyCtl "c1").trace ∧
    Event.encryptBookmark ∉ (manageCategoryPassword Sample.prims Sample.wrongInput
      Sample.sealedStore Sample.emptyCtl "c1").trace ∧
    Event.deriveKey ∉ (manageCategoryPassword Sample.prims Sample.wrongInput
      Sample.sealedStore Sample.emptyCtl "c1").trace :=
  manageCategoryPassword_wrong_password Sample.prims Sample.wrongInput Sample.sealedStore
    Sample.emptyCtl "c1" "bad" (Sample.protectedCategory "c1" "old" "0a")
    (by decide) (by decide) rfl (by decide)

/-- C12 (cancellation is a no-op). Whenever a password prompt that is shown returns `null` or
the empty string, the run ends with the store and the controller unchanged and an empty
trace (no `deriveKey`, `encryptBookmark` or `decryptBookmark` call, no write): in
`toggleCategory` on a collapsed protected category; in `manageCategoryPassword` at the
current-password prompt of a protected category, at the new-password prompt of the change
branch, and at the set-password prompt of an unprotected category. -/
theorem cancelled_prompt_is_noop (P : Prims) (st : Store) (ctl : Controller)
    (categoryId : String) (categories : List Category) (category : Category)
    (hcats : st.categories = some categories)
    (hfind : categories.find? (fun c => c.id == categoryId) = some category) :
    (∀ inputPassword,
      ctl.expandedCategories.contains categoryId = false →
      truthy category.password = true → cancelled inputPassword = true →
      toggleCategory P inputPassword st ctl categoryId =
        { store := st, ctl := ctl, trace := [] }) ∧
    (∀ inp : ManageInput,
      truthy category.password = true → cancelled inp.currentPassword = true →
      manageCategoryPassword P inp st ctl categoryId =
        { store := st, ctl := ctl, trace := [] }) ∧
    (∀ (inp : ManageInput) (currentPassword : String),
      truthy category.password = true →
      inp.currentPassword = some currentPassword → strTruthy currentPassword = true →
      some (hashPassword P currentPassword) = category.password →
      inp.change = true → cancelled inp.newPassword = true →
      manageCategoryPassword P inp st ctl categoryId =
        { store := st, ctl := ctl, trace := [] }) ∧
    (∀ inp : ManageInput,
      truthy category.password = false → cancelled inp.newPassword = true →
      manageCategoryPassword P inp st ctl categoryId =
        { store := st, ctl := ctl, trace := [] }) := by
  have hfind' : (st.categories.getD []).find? (fun c => c.id == categoryId) = some category := by
    simp [hcats, hfind]
  refine ⟨?_, ?_, ?_, ?_⟩
  · intro inputPassword hcol hprot hc
    have hexp : categoryId ∉ ctl.expandedCategories := by simpa using hcol
    unfold toggleCategory
    cases inputPassword with
    | none => simp [hexp, hcats, hfind, hprot]
    | some s =>
      have hs : strTruthy s = false := by simpa [cancelled] using hc
      simp [hexp, hcats, hfind, hprot, hs]
  · intro inp hprot hc
    unfold manageCategoryPassword
    cases hcur : inp.currentPassword with
    | none => simp [hfind', hprot, hcur]
    | some s =>
      have hs : strTruthy s = false := by simpa [cancelled, hcur] using hc
      simp [hfind', hprot, hcur, hs]
  · intro inp cur hprot hcur hne hright hch hc
    have heq : (some (hashPassword P cur) != category.password) = false := by simp [hright]
    unfold manageCategoryPassword
    cases hnew : inp.newPassword with
    | none => simp [hfind', hprot, hcur, hne, heq, hch, hnew]
    | some s =>
      have hs : strTruthy s = false := by simpa [cancelled, hnew] using hc
      simp [hfind', hprot, hcur, hne, heq, hch, hnew, hs]
  · intro inp hprot hc
    unfold manageCategoryPassword
    cases hnew : inp.newPassword with
    | none => simp [hfind', hprot, hnew]
    | some s =>
      have hs : strTruthy s = false := by simpa [cancelled, hnew] using hc
      simp [hfind', hprot, hnew, hs]


set_option maxRecDepth 1000000 in
theorem cancelled_prompt_is_noop_witness :
    toggleCategory Sample.prims none Sample.sealedStore Sample.emptyCtl "c1" =
      { store := Sample.sealedStore, ctl := Sample.emptyCtl, trace := [] } ∧
    manageCategoryPassword Sample.prims Sample.cancelInput Sample.sealedStore Sample.emptyCtl
      "c1" = { store := Sample.sealedStore, ctl := Sample.emptyCtl, trace := [] } ∧
    manageCategoryPassword Sample.prims Sample.changeCancelInput Sample.sealedStore
      Sample.emptyCtl "c1" =
        { store := Sample.sealedStore, ctl := Sample.emptyCtl, trace := [] } ∧
    manageCategoryPassword Sample.prims Sample.cancelInput Sample.openStore Sample.emptyCtl
      "c1" = { store := Sample.openStore, ctl := Sample.emptyCtl, trace := [] } :=
  ⟨(cancelled_prompt_is_noop Sample.prims Sample.sealedStore Sample.emptyCtl "c1"
      [Sample.protectedCategory "c1" "old" "0a"] (Sample.protectedCategory "c1" "old" "0a")
      rfl (by decide)).1 none (by decide) (by decide) (by decide),
    (cancelled_prompt_is_noop Sample.prims Sample.sealedStore Sample.emptyCtl "c1"
      [Sample.protectedCategory "c1" "old" "0a"] (Sample.protectedCategory "c1" "old" "0a")
      rfl (by decide)).2.1 Sample.cancelInput (by decide) (by decide),
    (cancelled_prompt_is_noop Sample.prims Sample.sealedStore Sample.emptyCtl "c1"
      [Sample.protectedCategory "c1" "old" "0a"] (Sample.protectedCategory "c1" "old" "0a")
      rfl (by decide)).2.2.1 Sample.changeCancelInput "old" (by decide) rfl (by decide)
      (by decide) rfl (by decide),
    (cancelled_prompt_is_noop Sample.prims Sample.openStore Sample.emptyCtl "c1"
      [Sample.openCategory "c1"] (Sample.openCategory "c1")
      rfl (by decide)).2.2.2 Sample.cancelInput (by decide) (by decide)⟩

/-! ## A failing encryption in the set branch -/

theorem setAt_ids (f : Bookmark → Bookmark) (k : String) (l : List Bookmark) (i : Nat)
    (hf : ∀ x, x.id = k → (f x).id = k)
    (hi : findIndex (fun b => b.id == k) l = some i) :
    (setAt f l i).map (fun b => b.id) = l.map (fun b => b.id) := by
  induction l generalizing i with
  | nil => simp [findIndex] at hi
  | cons a as ih =>
    unfold findIndex at hi
    by_cases ha : a.id = k
    · simp only [ha, beq_self_eq_true, if_true, Option.some.injEq] at hi
      subst hi
      simp [setAt, hf a ha, ha]
    · have hak : (a.id == k) = false := by simpa using ha
      simp only [hak, Bool.false_eq_true, if_false, Option.map_eq_some'] at hi
      obtain ⟨j, hj, rfl⟩ := hi
      simp [setAt, ih j hj]

theorem encryptForSet_fails (P : Prims) (pw salt : String) (ivRnd : Nat → Nat → Byte) :
    ∀ (todo : List Bookmark) (k : Nat) (cur : List Bookmark),
      (∀ b ∈ todo, b.id ∈ cur.map (fun b => b.id)) →
      (∃ b ∈ todo, ∀ k, encryptBookmark P b.url b.title pw (some salt) (ivRnd k) = none) →
      (encryptForSet P pw salt ivRnd todo k cur).2 = none := by
  intro todo
  induction todo with
  | nil => intro k cur _ h; simp at h
  | cons b rest ih =>
    intro k cur hsub hbad
    obtain ⟨i, hi⟩ := findIndex_of_mem b.id cur (hsub b (List.mem_cons_self _ _))
    unfold encryptForSet
    simp only [hi]
    cases henc : encryptBookmark P b.url b.title pw (some salt) (ivRnd k) with
    | none => rfl
    | some ed =>
      simp only
      apply ih
      · intro c hc
        rw [setAt_ids (fun _ => encryptedVariant b ed) b.id cur i (fun _ _ => rfl) hi]
        exact hsub c (List.mem_cons_of_mem _ hc)
      · obtain ⟨c, hc, hcf⟩ := hbad
        rcases List.mem_cons.1 hc with rfl | hc'
        · rw [hcf k] at henc; cases henc
        · exact ⟨c, hc', hcf⟩

theorem encryptForSet_trace (P : Prims) (pw salt : String) (ivRnd : Nat → Nat → Byte) :
    ∀ (todo : List Bookmark) (k : Nat) (cur : List Bookmark),
      Event.storageSet ∉ (encryptForSet P pw salt ivRnd todo k cur).1 := by
  intro todo
  induction todo with
  | nil => intro k cur; simp [encryptForSet]
  | cons b rest ih =>
    intro k cur
    unfold encryptForSet
    split
    · exact ih k cur
    · split
      · simp [encryptCall]
      · simp only [List.mem_append, not_or]
        exact ⟨by simp [encryptCall], ih _ _⟩

/-- C13 (a seal failure aborts the set branch). For an unprotected category and a non-blank
password, if `encryptBookmark` fails for a plaintext bookmark of the category (whatever iv
the run draws), `manageCategoryPassword` never calls `chrome.storage.local.set`: the store
is as it was, so the category still has no verifier and no salt and every bookmark is
still in its original variant; the controller is unchanged too. -/
theorem setPassword_seal_failure (P : Prims) (inp : ManageInput) (st : Store)
    (ctl : Controller) (categoryId password : String) (category : Category) (bad : Bookmark)
    (hfind : (st.categories.getD []).find? (fun c => c.id == categoryId) = some category)
    (hunprot : truthy category.password = false)
    (hpw : inp.newPassword = some password) (hnonblank : trimNonEmpty password = true)
    (hmem : bad ∈ st.bookmarks.getD []) (hcat : bad.categoryId = categoryId)
    (hplain : bad.encrypted = false)
    (hfail : ∀ k, encryptBookmark P bad.url bad.title password
      (some (generateSalt inp.saltRnd)) (inp.ivRnd k) = none) :
    (manageCategoryPassword P inp st ctl categoryId).store = st ∧
    (manageCategoryPassword P inp st ctl categoryId).ctl = ctl ∧
    Event.storageSet ∉ (manageCategoryPassword P inp st ctl categoryId).trace := by
  have hloop := encryptForSet_fails P password (generateSalt inp.saltRnd) inp.ivRnd
    ((st.bookmarks.getD []).filter (fun b => b.categoryId == categoryId && !b.encrypted)) 0
    (st.bookmarks.getD [])
    (fun b hb => List.mem_map_of_mem _ (List.mem_of_mem_filter hb))
    ⟨bad, by simp [List.mem_filter, hmem, hcat, hplain], hfail⟩
  have htrace := encryptForSet_trace P password (generateSalt inp.saltRnd) inp.ivRnd
    ((st.bookmarks.getD []).filter (fun b => b.categoryId == categoryId && !b.encrypted)) 0
    (st.bookmarks.getD [])
  unfold manageCategoryPassword
  simp only [hfind, hunprot, hpw, hnonblank, strTruthy_of_trimNonEmpty password hnonblank]
  generalize encryptForSet P password (generateSalt inp.saltRnd) inp.ivRnd
    ((st.bookmarks.getD []).filter (fun b => b.categoryId == categoryId && !b.encrypted)) 0
    (st.bookmarks.getD []) = r at hloop htrace
  obtain ⟨ev, o⟩ := r
  simp only at hloop htrace
  subst hloop
  simp [htrace]

set_option maxRecDepth 1000000 in
theorem setPassword_seal_failure_witness :
    (manageCategoryPassword Sample.failingPrims Sample.setInput Sample.openStore
      Sample.emptyCtl "c1").store = Sample.openStore ∧
    (manageCategoryPassword Sample.failingPrims Sample.setInput Sample.openStore
      Sample.emptyCtl "c1").ctl = Sample.emptyCtl ∧
    Event.storageSet ∉ (manageCategoryPassword Sample.failingPrims Sample.setInput
      Sample.openStore Sample.emptyCtl "c1").trace :=
  setPassword_seal_failure Sample.failingPrims Sample.setInput Sample.openStore
    Sample.emptyCtl "c1" "pw" (Sample.openCategory "c1")
    (Sample.plainBookmark "b2" "c1" "https://a.example/2" "Two")
    (by decide) (by decide) rfl (by decide) (by decide) rfl rfl (fun _ => rfl)

/-! ## The hex codec -/

set_option maxRecDepth 1000000 in
theorem byteToHex_digits : ∀ b : Byte,
    byteToHex b = [lowerHexDigit (b.val / 16), lowerHexDigit (b.val % 16)] := by
  decide

theorem toHex_eq_spec (bytes : List Byte) : toHex bytes = specHexEncode bytes := by
  unfold toHex specHexEncode
  congr 2
  exact List.map_congr_left (fun b _ => byteToHex_digits b)

theorem toHex_length (bytes : List Byte) : (toHex bytes).length = 2 * bytes.length := by
  unfold toHex
  rw [String.length]
  induction bytes with
  | nil => rfl
  | cons b bs ih =>
    obtain ⟨c, d, hcd, -⟩ := byteToHex_shape b
    simp only [List.map_cons, List.flatten_cons, List.length_append, hcd, List.length_cons,
      List.length_nil] at ih ⊢
    omega

theorem getRandomValues_length (n : Nat) (rnd : Nat → Byte) :
    (getRandomValues n rnd).length = n := by
  simp [getRandomValues]

/-- C16 (the hex codec is a round trip). The encoding the code uses is the one the
specification words (two lowercase hex digits per byte, zero-padded, concatenated) and has
length `2 * |B|`; for a non-empty byte array `B`, decoding it with
`match(/.{1,2}/g).map(byte => parseInt(byte, 16))` returns exactly `B`. Consequently
`generateSalt` returns 32 characters that decode to its sixteen random bytes, and the `iv`
that `encryptBookmark` returns has 24 characters that decode to its twelve random bytes. -/
theorem hex_codec_roundtrip (P : Prims) (bytes : List Byte) (hne : bytes ≠ [])
    (rnd : Nat → Byte) (url title salt : Option String) (password : String) :
    toHex bytes = specHexEncode bytes ∧
    (toHex bytes).length = 2 * bytes.length ∧
    hexToBytes (toHex bytes) = some bytes ∧
    (generateSalt rnd).length = 32 ∧
    hexToBytes (generateSalt rnd) = some (getRandomValues 16 rnd) ∧
    ∀ ed, encryptBookmark P url title password salt rnd = some ed →
      ed.iv.length = 24 ∧ hexToBytes ed.iv = some (getRandomValues 12 rnd) := by
  refine ⟨toHex_eq_spec bytes, toHex_length bytes, hexToBytes_toHex bytes hne, ?_,
    hexToBytes_generateSalt rnd, ?_⟩
  · unfold generateSalt
    rw [toHex_length, getRandomValues_length]
  · intro ed hed
    unfold encryptBookmark at hed
    split at hed
    · cases hed
    · simp only at hed
      split at hed
      · cases hed
      · cases hed
        exact ⟨by simp only [toHex_length, getRandomValues_length],
          hexToBytes_toHex _ (getRandomValues_ne_nil 12 rnd (by decide))⟩

set_option maxRecDepth 1000000 in
theorem hex_codec_roundtrip_witness :
    toHex [0, 10, 255] = "000aff" ∧ hexToBytes "000aff" = some [0, 10, 255] ∧
    (toHex [0, 10, 255]).length = 2 * 3 ∧
    hexToBytes (toHex [0, 10, 255]) = some [0, 10, 255] :=
  ⟨by decide, by decide,
    (hex_codec_roundtrip Sample.prims [0, 10, 255] (by decide) (Sample.constRnd 7)
      (some "u") (some "t") (some "0a") "pw").2.1,
    (hex_codec_roundtrip Sample.prims [0, 10, 255] (by decide) (Sample.constRnd 7)
      (some "u") (some "t") (some "0a") "pw").2.2.1⟩

/-! ## Other categories are left alone -/

theorem updateCategory_frame (f : Category → Category) (cid : String) (l : List Category) :
    List.Forall₂ (fun c c' => c.id ≠ cid → c' = c) l (updateCategory f cid l) := by
  induction l with
  | nil => exact List.Forall₂.nil
  | cons a as ih =>
    unfold updateCategory
    by_cases ha : a.id = cid
    · simp only [ha, beq_self_eq_true, if_true]
      exact List.Forall₂.cons (fun h => absurd ha h) (List.forall₂_same.2 (fun _ _ _ => rfl))
    · have hak : (a.id == cid) = false := by simpa using ha
      simp only [hak, Bool.false_eq_true, if_false]
      exact List.Forall₂.cons (fun _ => rfl) ih

theorem forall₂_ids {l l' : List Bookmark}
    (h : List.Forall₂ (fun b b' => b'.id = b.id ∧ (b.categoryId ≠ cid → b' = b)) l l') :
    l'.map (fun b => b.id) = l.map (fun b => b.id) := by
  induction h with
  | nil => rfl
  | cons hab _ ih => simp [hab.1, ih]

theorem manage_frame (P : Prims) (inp : ManageInput) (st : Store) (ctl : Controller)
    (cid : String) (hids : ((st.bookmarks.getD []).map (fun b => b.id)).Nodup) :
    List.Forall₂ (fun c c' => c.id ≠ cid → c' = c) (st.categories.getD [])
      ((manageCategoryPassword P inp st ctl cid).store.categories.getD []) ∧
    List.Forall₂ (fun b b' => b'.id = b.id ∧ (b.categoryId ≠ cid → b' = b))
      (st.bookmarks.getD [])
      ((manageCategoryPassword P inp st ctl cid).store.bookmarks.getD []) := by
  rcases manage_store_cases P inp st ctl cid with h | ⟨c0, pw, res, hfind, hprot, hres, h⟩ |
    ⟨c0, old, new, res, hfind, hprot, hres, h⟩ | ⟨c0, pw, hfind, hprot, hcur, hch, h⟩
  · rw [h]
    exact ⟨List.forall₂_same.2 (fun _ _ _ => rfl), List.forall₂_same.2 (fun _ _ => ⟨rfl, fun _ => rfl⟩)⟩
  · rw [h]
    refine ⟨updateCategory_frame _ _ _, ?_⟩
    refine (encryptForSet_rel P pw _ inp.ivRnd cid _ res hids hres).imp ?_
    intro x x' hR
    unfold SetRel at hR
    split at hR
    · rename_i hp
      obtain ⟨ed, rnd, -, rfl⟩ := hR
      exact ⟨rfl, fun hne => absurd hp.1 hne⟩
    · subst hR; exact ⟨rfl, fun _ => rfl⟩
  · rw [h]
    refine ⟨updateCategory_frame _ _ _, ?_⟩
    refine (reencryptForChange_rel P old c0.salt new _ inp.ivRnd cid _ res hids hres).imp ?_
    intro x x' hR
    unfold ChangeRel at hR
    split at hR
    · rename_i hp
      split at hR
      · obtain ⟨ed, rnd, -, rfl⟩ := hR
        exact ⟨rfl, fun hne => absurd hp.1 hne⟩
      · subst hR; exact ⟨rfl, fun _ => rfl⟩
    · subst hR; exact ⟨rfl, fun _ => rfl⟩
  · rw [h]
    refine ⟨updateCategory_frame _ _ _, ?_⟩
    refine (decryptForRemove_rel P pw c0.salt cid _ hids).imp ?_
    intro x x' hR
    unfold RemoveRel at hR
    split at hR
    · rename_i hp
      split at hR
      · subst hR; exact ⟨rfl, fun hne => absurd hp.1 hne⟩
      · subst hR; exact ⟨rfl, fun _ => rfl⟩
    · subst hR; exact ⟨rfl, fun _ => rfl⟩

/-- C15 (operations on one category leave the others alone). If the stored bookmark ids are
pairwise distinct, then after any run of `manageCategoryPassword(categoryId)`, position by
position, every stored category whose id is not `categoryId` and every stored bookmark
whose `categoryId` is not `categoryId` is unchanged, every bookmark keeps its id, and the
number and the order of the bookmarks are unchanged. -/
theorem manageCategoryPassword_leaves_others (P : Prims) (inp : ManageInput) (st : Store)
    (ctl : Controller) (categoryId : String)
    (hids : ((st.bookmarks.getD []).map (fun b => b.id)).Nodup) :
    List.Forall₂ (fun c c' => c.id ≠ categoryId → c' = c) (st.categories.getD [])
      ((manageCategoryPassword P inp st ctl categoryId).store.categories.getD []) ∧
    List.Forall₂ (fun b b' => b'.id = b.id ∧ (b.categoryId ≠ categoryId → b' = b))
      (st.bookmarks.getD [])
      ((manageCategoryPassword P inp st ctl categoryId).store.bookmarks.getD []) ∧
    ((manageCategoryPassword P inp st ctl categoryId).store.bookmarks.getD []).length =
      (st.bookmarks.getD []).length ∧
    ((manageCategoryPassword P inp st ctl categoryId).store.bookmarks.getD []).map
      (fun b => b.id) = (st.bookmarks.getD []).map (fun b => b.id) := by
  obtain ⟨h1, h2⟩ := manage_frame P inp st ctl categoryId hids
  exact ⟨h1, h2, h2.length_eq.symm, forall₂_ids h2⟩

set_option maxRecDepth 1000000 in
theorem manageCategoryPassword_leaves_others_witness :
    ((manageCategoryPassword Sample.prims Sample.changeInput Sample.twoCategoryStore
      Sample.emptyCtl "c1").store.bookmarks.getD []).map (fun b => b.id) = ["b1", "b2"] :=
  (manageCategoryPassword_leaves_others Sample.prims Sample.changeInput
    Sample.twoCategoryStore Sample.emptyCtl "c1" (by decide)).2.2.2

/-! ## Locking -/

theorem toggle_derivedKeys (P : Prims) (inputPassword : Option String) (st : Store)
    (ctl : Controller) (cid : String) :
    (toggleCategory P inputPassword st ctl cid).ctl.derivedKeys = ctl.derivedKeys := by
  unfold toggleCategory
  simp only []
  repeat' split
  all_goals rfl

theorem manage_derivedKeys (P : Prims) (inp : ManageInput) (st : Store)
    (ctl : Controller) (cid : String) :
    (manageCategoryPassword P inp st ctl cid).ctl.derivedKeys = ctl.derivedKeys ∨
    (manageCategoryPassword P inp st ctl cid).ctl.derivedKeys =
      mapDelete ctl.derivedKeys cid := by
  unfold manageCategoryPassword
  simp only []
  repeat' split
  all_goals first
    | exact Or.inl rfl
    | exact Or.inr rfl

theorem reachable_derivedKeys (P : Prims) (ctl : Controller) (h : Reachable P ctl) :
    ctl.derivedKeys = [] := by
  induction h with
  | initial => rfl
  | toggle inputPassword st ctl cid _ ih => rw [toggle_derivedKeys, ih]
  | manage inp st ctl cid _ ih =>
    rcases manage_derivedKeys P inp st ctl cid with h | h
    · rw [h, ih]
    · rw [h, ih]; rfl

theorem toggle_collapse (P : Prims) (inputPassword : Option String) (st : Store)
    (ctl : Controller) (cid : String) (h : ctl.expandedCategories.contains cid = true) :
    (toggleCategory P inputPassword st ctl cid).ctl = collapse ctl cid := by
  have h' : cid ∈ ctl.expandedCategories := by simpa using h
  unfold toggleCategory collapse
  simp [h']

theorem collapse_locked (ctl : Controller) (cid : String)
    (hexp : ctl.expandedCategories.contains cid = false)
    (hcache : mapHas ctl.decryptedCache cid = false) : collapse ctl cid = ctl := by
  have h1 : setDelete ctl.expandedCategories cid = ctl.expandedCategories := by
    unfold setDelete
    rw [List.filter_eq_self]
    intro y hy
    have : cid ∉ ctl.expandedCategories := by simpa using hexp
    have hne : y ≠ cid := fun e => this (e ▸ hy)
    simpa using hne
  have h2 : mapDelete ctl.decryptedCache cid = ctl.decryptedCache := by
    unfold mapDelete
    rw [List.filter_eq_self]
    intro e he
    simp only [mapHas, List.any_eq_false, beq_iff_eq] at hcache
    simpa using hcache e he
  unfold collapse
  rw [h1, h2]

theorem mapHas_mapDelete {β : Type} (m : List (String × β)) (k : String) :
    mapHas (mapDelete m k) k = false := by
  simp [mapHas, mapDelete]

/-- C14 (lock drops the caches and is idempotent). In a controller state the program can
reach, `toggleCategory` on an expanded category runs the collapse branch: afterwards the
category has no entry in `decryptedCache`, none in `derivedKeys`, and is not in
`expandedCategories`. Collapsing twice is collapsing once, and collapsing a category that is
already locked (not expanded, no cache entry) leaves the controller unchanged. -/
theorem lock_drops_and_is_idempotent (P : Prims) (inputPassword : Option String) (st : Store)
    (ctl locked : Controller) (categoryId : String)
    (hreach : Reachable P ctl)
    (hunlocked : ctl.expandedCategories.contains categoryId = true)
    (hlocked : locked.expandedCategories.contains categoryId = false ∧
      mapHas locked.decryptedCache categoryId = false) :
    (toggleCategory P inputPassword st ctl categoryId).ctl = collapse ctl categoryId ∧
    mapHas (toggleCategory P inputPassword st ctl categoryId).ctl.decryptedCache categoryId
      = false ∧
    mapHas (toggleCategory P inputPassword st ctl categoryId).ctl.derivedKeys categoryId
      = false ∧
    (toggleCategory P inputPassword st ctl categoryId).ctl.expandedCategories.contains
      categoryId = false ∧
    collapse (collapse ctl categoryId) categoryId = collapse ctl categoryId ∧
    collapse locked categoryId = locked := by
  have hkeys := reachable_derivedKeys P ctl hreach
  have hnot := not_mem_setDelete ctl.expandedCategories categoryId
  rw [toggle_collapse P inputPassword st ctl categoryId hunlocked]
  refine ⟨rfl, mapHas_mapDelete _ _, ?_, ?_, ?_, collapse_locked locked categoryId hlocked.1 hlocked.2⟩
  · simp [collapse, hkeys, mapHas]
  · simpa [collapse] using hnot
  · exact collapse_locked _ _ (by simpa [collapse] using hnot) (mapHas_mapDelete _ _)

set_option maxRecDepth 1000000 in
theorem lock_drops_and_is_idempotent_witness :
    Sample.unlockedCtl.expandedCategories.contains "c1" = true ∧
    mapHas Sample.unlockedCtl.decryptedCache "c1" = true ∧
    (toggleCategory Sample.prims none Sample.sealedStore Sample.unlockedCtl "c1").ctl =
      Controller.initial ∧
    collapse Controller.initial "c1" = Controller.initial :=
  ⟨by decide, by decide,
    ((lock_drops_and_is_idempotent Sample.prims none Sample.sealedStore Sample.unlockedCtl
      Controller.initial "c1"
      (Reachable.toggle (some "old") Sample.sealedStore Controller.initial "c1"
        Reachable.initial)
      (by decide) (by decide)).1).trans (by decide),
    (lock_drops_and_is_idempotent Sample.prims none Sample.sealedStore Sample.unlockedCtl
      Controller.initial "c1"
      (Reachable.toggle (some "old") Sample.sealedStore Controller.initial "c1"
        Reachable.initial)
      (by decide) (by decide)).2.2.2.2.2⟩

end VaultMark
